import Mathlib

/-!
Verification development for the legalization pass of the cretonne code
generator, together with its test reducer (`bugpoint`) and the faerie
object-emission backend's trap sink.

The legalization driver (`legalize_function` in
`lib/cretonne/src/legalizer/mod.rs`) is embedded directly from the source.
Its collaborators — `boundary::legalize_signatures`, `handle_call_abi`,
`handle_return_abi`, `split::simplify_branch_arguments`, the target's
`encode` oracle, and the generated `expand`/`narrow` rewrite functions —
live outside the embedded sources, so they are modelled from the spec as
opaque parameters (an `Oracles` bundle), constrained only where a claim's
own hypotheses require it.
-/

namespace Legalizer

/-- Instruction handles are indices into the function's arena (spec §9). -/
abbrev Inst := Nat

/-- Extended-basic-block handles. -/
abbrev Ebb := Nat

/-- The opcode of an instruction, reduced to the three predicates the
driver consults (`is_call`, `is_return`, `is_branch`). -/
structure Opcode where
  isCall : Bool
  isReturn : Bool
  isBranch : Bool

/-- Instruction data: the opcode, the controlling type variable
(`dfg.ctrl_typevar`), and the remaining operand payload, opaque. -/
structure InstData where
  opcode : Opcode
  ctrl : Nat
  fields : Nat

/-- The data-flow graph: per-handle instruction data and the number of
instructions created so far (`dfg.num_insts`). -/
structure Dfg where
  data : Inst → InstData
  numInsts : Nat

/-- `dfg.ctrl_typevar(inst)`: the controlling type variable of `inst`. -/
def Dfg.ctrlTypevar (d : Dfg) (i : Inst) : Nat :=
  (d.data i).ctrl

/-- The part of a `Function` that the legalization collaborators can reach
through their `&mut dfg`, `&mut cfg` and cursor (`&mut layout`) borrows:
everything except the encoding table and the signature. `insts e` is the
ordered instruction sequence of block `e`; `ebbs` is the layout's block
sequence. -/
structure Body where
  dfg : Dfg
  cfg : Nat
  ebbs : List Ebb
  insts : Ebb → List Inst

/-- The unit of legalization: a body (layout, dfg, cfg), the encoding
table (`func.encodings`, entry `none` meaning "no encoding assigned"),
and the signature. -/
structure Func where
  body : Body
  enc : Inst → Option Nat
  sig : Nat

/-- Replace the body of a function, keeping encodings and signature. -/
def Func.withBody (f : Func) (b : Body) : Func :=
  { f with body := b }

/-- The legalization action returned by the encoding selector when no
direct encoding exists. The enum is closed: exactly the two realized
strategies of `isa::Legalize`. -/
inductive Legalize where
  | Expand
  | Narrow

/-- The external collaborators of the driver.

Modelled from the spec: `legalize_signatures`, `handle_call_abi`,
`handle_return_abi` (§4.2), `simplify_branch_arguments` (§4.3), the
target's `encode` oracle (§4.4) and the table-driven `expand`/`narrow`
rewrite entry points (§4.5) are not part of the embedded sources (they
live in `legalizer/boundary.rs`, `legalizer/split.rs`, the target ISA and
generated code), so they appear here as opaque functions. Their argument
types mirror the borrows they receive in the source: the ABI handlers and
the rewrite engine get the dfg, the cfg and the cursor (hence a `Body` and
the cursor's block/instruction position) and may mutate those, but can
never touch the encoding table; `handle_return_abi` additionally reads the
function signature; `simplify_branch_arguments` gets only the dfg and the
instruction. Each rewrite returns whether it changed the function. A
rewrite that moves the cursor is only observed through the driver's own
repositioning, so cursor movement by a collaborator is not modelled. -/
structure Oracles where
  legalizeSignatures : Func → Func
  handleCallAbi : Body → Ebb → Inst → Body × Bool
  handleReturnAbi : Body → Nat → Ebb → Inst → Body × Bool
  simplifyBranchArguments : Dfg → Inst → Dfg
  encode : Dfg → InstData → Nat → Except Legalize Nat
  expand : Body → Ebb → Inst → Body × Bool
  narrow : Body → Ebb → Inst → Body × Bool

/-- `*func.encodings.ensure(inst) = encoding`: store an encoding in the
instruction's table slot. -/
def storeEnc (f : Func) (i : Inst) (e : Nat) : Func :=
  { f with enc := fun j => if j = i then some e else f.enc j }

/-- `func.encodings.resize(n)`: entries at or beyond `n` are dropped;
entries newly brought into range default to "no encoding". -/
def resizeEnc (f : Func) (n : Nat) : Func :=
  { f with enc := fun j => if j < n then f.enc j else none }

/-- The suffix of a block's instruction sequence strictly after a cursor
position (`none` = top of the block, `some i` = at instruction `i`).

Modelled from the spec (§4.6): the cursor's position is an opaque marker
over (block, instruction); `next_inst` steps to the instruction following
the marker, so instructions inserted after a captured position are visited
again once the position is restored. -/
def dropThrough : Option Inst → List Inst → List Inst
  | none, l => l
  | some _, [] => []
  | some i, x :: xs => if x = i then xs else dropThrough (some i) xs

/-- `pos.next_inst()`: the instruction following the cursor position in
the current block, or `none` at the end of the block. -/
def nextInst (f : Func) (ebb : Ebb) (pos : Option Inst) : Option Inst :=
  (dropThrough pos (f.body.insts ebb)).head?

/-- Outcome of one execution of the driver's loop body: either the body
ended with `pos.set_position(prev_pos); continue` (a rewind) or it fell
through to the bottom of the loop (an advance). -/
inductive StepOut where
  | rewound (f : Func)
  | advanced (f : Func)

/-- The `match action` dispatch of `legalize_function` (lines 88–91):
`Legalize::Expand` goes to `expand`, `Legalize::Narrow` to `narrow`. -/
def legalizeDispatch (or : Oracles) (action : Legalize) (b : Body) (ebb : Ebb) (inst : Inst) :
    Body × Bool :=
  match action with
  | .Expand => or.expand b ebb inst
  | .Narrow => or.narrow b ebb inst

/-- Lines 72–102 of the driver: query `isa.encode`; on success store the
encoding at the instruction's slot and fall through; on failure dispatch
the reported action to the rewrite engine, rewinding exactly when the
rewrite reports a change. -/
def encodeStep (or : Oracles) (f : Func) (ebb : Ebb) (inst : Inst) : StepOut :=
  match or.encode f.body.dfg (f.body.dfg.data inst) (f.body.dfg.ctrlTypevar inst) with
  | .ok encoding => .advanced (storeEnc f inst encoding)
  | .error action =>
    let r := legalizeDispatch or action f.body ebb inst
    if r.2 then .rewound (f.withBody r.1) else .advanced (f.withBody r.1)

/-- Lines 68–102 of the driver: branch-argument simplification (for a
branch opcode) followed by the encoding query. `opcode` is the opcode
read once at the top of the loop body. -/
def branchEncodeStep (or : Oracles) (opcode : Opcode) (f2 : Func) (ebb : Ebb)
    (inst : Inst) : StepOut :=
  let f3 := if opcode.isBranch then
              f2.withBody { f2.body with dfg := or.simplifyBranchArguments f2.body.dfg inst }
            else f2
  encodeStep or f3 ebb inst

/-- Lines 61–102 of the driver: the return-ABI check (rewinding when the
handler reports an insertion) followed by the rest of the loop body. -/
def retEncodeStep (or : Oracles) (opcode : Opcode) (f1 : Func) (ebb : Ebb)
    (inst : Inst) : StepOut :=
  let rr := if opcode.isReturn then or.handleReturnAbi f1.body f1.sig ebb inst
            else (f1.body, false)
  if rr.2 then .rewound (f1.withBody rr.1)
  else branchEncodeStep or opcode (f1.withBody rr.1) ebb inst

/-- Lines 52–102 of the driver: the full loop body for one instruction.
The opcode is read once up front; a call (resp. return) whose ABI handler
reports an insertion rewinds; a branch first has its arguments
simplified; then the encoding query runs. -/
def instStep (or : Oracles) (f : Func) (ebb : Ebb) (inst : Inst) : StepOut :=
  let opcode := (f.body.dfg.data inst).opcode
  let rc := if opcode.isCall then or.handleCallAbi f.body ebb inst else (f.body, false)
  if rc.2 then .rewound (f.withBody rc.1)
  else retEncodeStep or opcode (f.withBody rc.1) ebb inst

/-- The `while let Some(inst) = pos.next_inst()` loop over one block
(lines 51–106), with explicit fuel standing in for the unbounded loop:
with fuel `0` the loop is abandoned where it stands. A rewind resumes at
`prev_pos`; an advance remembers the current position as the new
`prev_pos`. -/
def ebbLoop (or : Oracles) : Nat → Func → Ebb → Option Inst → Option Inst → Func
  | 0, f, _, _, _ => f
  | Nat.succ fuel, f, ebb, pos, prevPos =>
    match nextInst f ebb pos with
    | none => f
    | some inst =>
      match instStep or f ebb inst with
      | .rewound f1 => ebbLoop or fuel f1 ebb prevPos prevPos
      | .advanced f1 => ebbLoop or fuel f1 ebb (some inst) (some inst)

/-- `legalize_function` (lines 32–109): lower the signatures, resize the
encoding table, process the blocks of the dominator tree's `cfg_postorder`
in reverse, each from its top (`pos.goto_top(ebb)`, with `prev_pos`
initially the captured top-of-block position), then resize the encoding
table once more. -/
def legalize_function (or : Oracles) (fuel : Nat) (postorder : List Ebb) (f : Func) : Func :=
  let f1 := or.legalizeSignatures f
  let f2 := resizeEnc f1 f1.body.dfg.numInsts
  let f3 := postorder.reverse.foldl (fun g ebb => ebbLoop or fuel g ebb none none) f2
  resizeEnc f3 f3.body.dfg.numInsts

/-- Completion-observing variant of `ebbLoop`: `none` exactly when the
fuel ran out before the block's traversal reached the end of the block,
`some` when the `while` loop terminated on its own. -/
def ebbLoopC (or : Oracles) : Nat → Func → Ebb → Option Inst → Option Inst → Option Func
  | 0, _, _, _, _ => none
  | Nat.succ fuel, f, ebb, pos, prevPos =>
    match nextInst f ebb pos with
    | none => some f
    | some inst =>
      match instStep or f ebb inst with
      | .rewound f1 => ebbLoopC or fuel f1 ebb prevPos prevPos
      | .advanced f1 => ebbLoopC or fuel f1 ebb (some inst) (some inst)

/-- Completion-observing traversal of a list of blocks. -/
def ebbsLoopC (or : Oracles) (fuel : Nat) : List Ebb → Func → Option Func
  | [], f => some f
  | e :: rest, f =>
    match ebbLoopC or fuel f e none none with
    | none => none
    | some f1 => ebbsLoopC or fuel rest f1

/-- Completion-observing variant of `legalize_function`: `some` exactly
when every block's traversal terminated within the given fuel. -/
def legalizeFunctionC (or : Oracles) (fuel : Nat) (postorder : List Ebb) (f : Func) :
    Option Func :=
  let f1 := or.legalizeSignatures f
  let f2 := resizeEnc f1 f1.body.dfg.numInsts
  match ebbsLoopC or fuel postorder.reverse f2 with
  | none => none
  | some f3 => some (resizeEnc f3 f3.body.dfg.numInsts)

/-- `ebbLoop` instrumented with the sequence of instructions the loop
visits (the successive results of `pos.next_inst()`). -/
def ebbLoopTr (or : Oracles) : Nat → Func → Ebb → Option Inst → Option Inst →
    Func × List Inst
  | 0, f, _, _, _ => (f, [])
  | Nat.succ fuel, f, ebb, pos, prevPos =>
    match nextInst f ebb pos with
    | none => (f, [])
    | some inst =>
      match instStep or f ebb inst with
      | .rewound f1 =>
        let r := ebbLoopTr or fuel f1 ebb prevPos prevPos
        (r.1, inst :: r.2)
      | .advanced f1 =>
        let r := ebbLoopTr or fuel f1 ebb (some inst) (some inst)
        (r.1, inst :: r.2)

/-- One block visit of the instrumented driver: run the block's loop from
its top and append the block together with its instruction trace. -/
def trStep (or : Oracles) (fuel : Nat) (acc : Func × List (Ebb × List Inst)) (ebb : Ebb) :
    Func × List (Ebb × List Inst) :=
  let t := ebbLoopTr or fuel acc.1 ebb none none
  (t.1, acc.2 ++ [(ebb, t.2)])

/-- `legalize_function` instrumented with the visitation order: for each
block visit, the block and the instructions visited inside it, in order. -/
def legalizeFunctionTr (or : Oracles) (fuel : Nat) (postorder : List Ebb) (f : Func) :
    Func × List (Ebb × List Inst) :=
  let f1 := or.legalizeSignatures f
  let f2 := resizeEnc f1 f1.body.dfg.numInsts
  let r := postorder.reverse.foldl (trStep or fuel) (f2, [])
  (resizeEnc r.1 r.1.body.dfg.numInsts, r.2)

/-- Collaborators that never report a change and never touch the function:
ABI handlers always answer "unchanged", branch simplification is the
identity, and every instruction has a direct encoding. Under these the
driver never rewinds. -/
def NoRw (or : Oracles) : Prop :=
  (∀ b e i, or.handleCallAbi b e i = (b, false))
  ∧ (∀ b s e i, or.handleReturnAbi b s e i = (b, false))
  ∧ (∀ d i, or.simplifyBranchArguments d i = d)
  ∧ (∀ d idat t, ∃ enc, or.encode d idat t = .ok enc)

/-- What one collaborator invocation at cursor `(ebb, inst)` may do to the
body, per the spec: modify the current block only at or after the current
instruction (conversions are inserted adjacent to the boundary
instruction, rewrites replace the instruction in place — §4.2, §4.5),
never remove a laid-out instruction or block, keep block instruction
sequences duplicate-free, and keep every laid-out handle within the
allocated range. -/
def LocalStepOK (ebb : Ebb) (inst : Inst) (b b2 : Body) : Prop :=
  (∀ pre post, b.insts ebb = pre ++ inst :: post → ∃ mid, b2.insts ebb = pre ++ mid)
  ∧ (∀ e j, j ∈ b.insts e → j ∈ b2.insts e)
  ∧ (∀ e, e ≠ ebb → b2.insts e = b.insts e)
  ∧ (∀ e, (b.insts e).Nodup → (b2.insts e).Nodup)
  ∧ ((∀ e j, j ∈ b.insts e → j < b.dfg.numInsts) →
     (∀ e j, j ∈ b2.insts e → j < b2.dfg.numInsts))
  ∧ (∀ e, e ∈ b.ebbs → e ∈ b2.ebbs)

/-- A rewrite entry point all of whose invocations are local in the sense
of `LocalStepOK`. -/
def LocalRw (g : Body → Ebb → Inst → Body × Bool) : Prop :=
  ∀ b e i, LocalStepOK e i b (g b e i).1

/-- The cursor position stands exactly at the end of the processed prefix
`T`: at the top of the block when `T` is empty, else at `T`'s last
instruction. -/
def PosEnd (pos : Option Inst) (T : List Inst) : Prop :=
  (pos = none ∧ T = []) ∨ (∃ p T2, pos = some p ∧ T = T2 ++ [p])

/-- Sanity conditions on the spec-modelled collaborators (§4.2, §4.5): all
rewrites are local, a handler that reports "unchanged" left the layout
alone, and branch simplification never deallocates instruction
handles. -/
structure Sane (or : Oracles) : Prop where
  callRw : LocalRw or.handleCallAbi
  retRw : ∀ s, LocalRw (fun b e i => or.handleReturnAbi b s e i)
  expandRw : LocalRw or.expand
  narrowRw : LocalRw or.narrow
  callFalseKeep : ∀ b e i, (or.handleCallAbi b e i).2 = false →
    ((or.handleCallAbi b e i).1).insts = b.insts
  retFalseKeep : ∀ b s e i, (or.handleReturnAbi b s e i).2 = false →
    ((or.handleReturnAbi b s e i).1).insts = b.insts
  simpNum : ∀ (d : Dfg) (i : Inst), d.numInsts ≤ (or.simplifyBranchArguments d i).numInsts

/-- No dead ends: whenever the encoding selector reports a legalization
action, the dispatched rewrite reports a change (the spec's "this
situation should not occur for well-formed rule tables"). -/
def NoDeadEnd (or : Oracles) : Prop :=
  ∀ (a : Legalize) (b : Body) (e : Ebb) (i : Inst),
    or.encode b.dfg (b.dfg.data i) (b.dfg.ctrlTypevar i) = .error a →
    (legalizeDispatch or a b e i).2 = true

/-- Well-formedness of a function state: block instruction sequences are
duplicate-free, every laid-out instruction handle is within the allocated
range, and every encoding-table entry refers to a laid-out (live)
instruction. -/
def Good (f : Func) : Prop :=
  (∀ e, (f.body.insts e).Nodup)
  ∧ (∀ e j, j ∈ f.body.insts e → j < f.body.dfg.numInsts)
  ∧ (∀ i, f.enc i ≠ none → ∃ e, e ∈ f.body.ebbs ∧ i ∈ f.body.insts e)

/-- All block instruction sequences of a body are duplicate-free. -/
def NodupAll (b : Body) : Prop :=
  ∀ e, (b.insts e).Nodup

/-- The claim's termination hypotheses, as a single well-founded measure
`μ` on the mutable body: every collaborator invocation that reports a
change strictly decreases `μ` (this covers both the expand/narrow
soundness hypothesis and the finiteness of ABI insertions per boundary
instruction), an invocation that reports "unchanged" is a no-op, branch
simplification does not affect `μ`, and all of them keep block
instruction sequences duplicate-free. -/
structure Decreasing (or : Oracles) (μ : Body → Nat) : Prop where
  callDec : ∀ b e i, (or.handleCallAbi b e i).2 = true → μ (or.handleCallAbi b e i).1 < μ b
  callKeep : ∀ b e i, (or.handleCallAbi b e i).2 = false → (or.handleCallAbi b e i).1 = b
  retDec : ∀ b s e i, (or.handleReturnAbi b s e i).2 = true →
    μ (or.handleReturnAbi b s e i).1 < μ b
  retKeep : ∀ b s e i, (or.handleReturnAbi b s e i).2 = false →
    (or.handleReturnAbi b s e i).1 = b
  expandDec : ∀ b e i, (or.expand b e i).2 = true → μ (or.expand b e i).1 < μ b
  expandKeep : ∀ b e i, (or.expand b e i).2 = false → (or.expand b e i).1 = b
  narrowDec : ∀ b e i, (or.narrow b e i).2 = true → μ (or.narrow b e i).1 < μ b
  narrowKeep : ∀ b e i, (or.narrow b e i).2 = false → (or.narrow b e i).1 = b
  simpKeep : ∀ (b : Body) (i : Inst),
    μ { b with dfg := or.simplifyBranchArguments b.dfg i } = μ b
  callNodup : ∀ b e i, NodupAll b → NodupAll (or.handleCallAbi b e i).1
  retNodup : ∀ b s e i, NodupAll b → NodupAll (or.handleReturnAbi b s e i).1
  expandNodup : ∀ b e i, NodupAll b → NodupAll (or.expand b e i).1
  narrowNodup : ∀ b e i, NodupAll b → NodupAll (or.narrow b e i).1

/-- A function state on which the pass is a fixed point, per the spec's
idempotence reliance (§4.2, §8): signature lowering is already done, the
encoding table has no entries beyond the allocated handles, ABI handlers
answer "unchanged" without touching the function on every laid-out call
and return, branch arguments are already simplified, every instruction
that encodes directly already has exactly that encoding stored, and any
legalization action dispatches to a rewrite that reports "unchanged"
without touching the function. -/
def AlreadyLegal (or : Oracles) (po : List Ebb) (g : Func) : Prop :=
  or.legalizeSignatures g = g
  ∧ (∀ i, g.body.dfg.numInsts ≤ i → g.enc i = none)
  ∧ (∀ e ∈ po, (g.body.insts e).Nodup)
  ∧ (∀ e ∈ po, ∀ inst ∈ g.body.insts e,
      ((g.body.dfg.data inst).opcode.isCall = true →
        or.handleCallAbi g.body e inst = (g.body, false))
      ∧ ((g.body.dfg.data inst).opcode.isReturn = true →
        or.handleReturnAbi g.body g.sig e inst = (g.body, false))
      ∧ ((g.body.dfg.data inst).opcode.isBranch = true →
        or.simplifyBranchArguments g.body.dfg inst = g.body.dfg)
      ∧ (∀ enc, or.encode g.body.dfg (g.body.dfg.data inst)
            (g.body.dfg.ctrlTypevar inst) = .ok enc → g.enc inst = some enc)
      ∧ (∀ a, or.encode g.body.dfg (g.body.dfg.data inst)
            (g.body.dfg.ctrlTypevar inst) = .error a →
          legalizeDispatch or a g.body e inst = (g.body, false)))

/-- The intermediate body after the call-ABI check of the loop body: the
handler ran and reported "unchanged", or the instruction is not a call. -/
def CallStage (or : Oracles) (opcode : Opcode) (b0 : Body) (ebb : Ebb) (inst : Inst)
    (b1 : Body) : Prop :=
  (opcode.isCall = true ∧ or.handleCallAbi b0 ebb inst = (b1, false))
  ∨ (opcode.isCall = false ∧ b1 = b0)

/-- The intermediate body after the return-ABI check. -/
def RetStage (or : Oracles) (opcode : Opcode) (sig : Nat) (ebb : Ebb) (inst : Inst)
    (b1 b2 : Body) : Prop :=
  (opcode.isReturn = true ∧ or.handleReturnAbi b1 sig ebb inst = (b2, false))
  ∨ (opcode.isReturn = false ∧ b2 = b1)

/-- The intermediate body after the branch-argument simplification. -/
def BranchStage (or : Oracles) (opcode : Opcode) (inst : Inst) (b2 b3 : Body) : Prop :=
  (opcode.isBranch = true ∧ b3 = { b2 with dfg := or.simplifyBranchArguments b2.dfg inst })
  ∨ (opcode.isBranch = false ∧ b3 = b2)

/-- Concrete instruction data with no opcode flags set. -/
def plainInst : InstData :=
  { opcode := { isCall := false, isReturn := false, isBranch := false }, ctrl := 0, fields := 0 }

/-- Concrete instruction data marked as a call. -/
def callInst : InstData :=
  { opcode := { isCall := true, isReturn := false, isBranch := false }, ctrl := 0, fields := 0 }

/-- A concrete one-block, one-instruction function used to exercise the
driver. -/
def fW : Func :=
  { body := { dfg := { data := fun _ => plainInst, numInsts := 1 },
              cfg := 0, ebbs := [0], insts := fun e => if e = 0 then [0] else [] },
    enc := fun _ => none,
    sig := 0 }

/-- `fW` with its single instruction marked as a call. -/
def fCall : Func :=
  { fW with body := { fW.body with dfg := { data := fun _ => callInst, numInsts := 1 } } }

/-- Concrete collaborators that never change anything and encode every
instruction as recipe `7`. -/
def orW : Oracles :=
  { legalizeSignatures := fun f => f,
    handleCallAbi := fun b _ _ => (b, false),
    handleReturnAbi := fun b _ _ _ => (b, false),
    simplifyBranchArguments := fun d _ => d,
    encode := fun _ _ _ => .ok 7,
    expand := fun b _ _ => (b, false),
    narrow := fun b _ _ => (b, false) }

/-- `orW` with a call-ABI handler that reports an insertion. -/
def orCall : Oracles :=
  { orW with handleCallAbi := fun b _ _ => (b, true) }

end Legalizer

namespace Bugpoint

/-!
Embedding of the test reducer in `src/bugpoint.rs`: the `Phase` state
machine (`Phase::step`), the traversal helper `next_inst_ret_prev`, and
one iteration of `reduce`'s inner loop. The function layout and data-flow
graph it operates on are outside the embedded sources.

Modelled from the spec: a function's layout is an ordered sequence of
blocks, each an ordered sequence of instructions; the entry block is the
first block of the layout; instruction and block handles are arena
indices (§3, §9). `remove_inst`/`remove_ebb` unlink a handle from the
layout; `replace` rewrites the handle's instruction data in place.
-/

abbrev Ebb := Nat
abbrev Inst := Nat
abbrev Value := Nat
abbrev Ty := Nat

/-- Instruction data, reduced to what the reducer writes: a constant
load, a trap, or anything else. -/
inductive BInstData where
  | iconst (ty : Ty) (imm : Int)
  | trap (code : Nat)
  | other (k : Nat)

/-- The data-flow graph as the reducer consumes it: per-instruction data
and results, value types, and the entity counts used for progress bars. -/
structure Dfg where
  data : Inst → BInstData
  results : Inst → List Value
  valueType : Value → Ty
  numInsts : Nat
  numEbbs : Nat

/-- The layout: ordered blocks, each with its ordered instructions. -/
structure Layout where
  ebbs : List (Ebb × List Inst)

/-- `layout.entry_block()`: the first block of the layout. -/
def Layout.entryBlock (l : Layout) : Option Ebb :=
  l.ebbs.head?.map Prod.fst

/-- The instruction list of a block, if the block is in the layout. -/
def lookupEbb (l : Layout) (e : Ebb) : Option (List Inst) :=
  (l.ebbs.find? (fun p => p.1 == e)).map Prod.snd

/-- `layout.first_inst(ebb)`. -/
def Layout.firstInst (l : Layout) (e : Ebb) : Option Inst :=
  (lookupEbb l e).bind List.head?

/-- The element following the first occurrence of `i` in a list. -/
def nextInList : List Inst → Inst → Option Inst
  | [], _ => none
  | x :: rest, i => if x = i then rest.head? else nextInList rest i

/-- Search the blocks for the one containing `i` and return the
instruction after `i` there. -/
def nextInstIn : List (Ebb × List Inst) → Inst → Option Inst
  | [], _ => none
  | (_, xs) :: rest, i => if i ∈ xs then nextInList xs i else nextInstIn rest i

/-- `layout.next_inst(inst)`: the next instruction in the block containing
`inst`, or `none` at the end of that block (or if `inst` is not laid
out). -/
def Layout.nextInst (l : Layout) (i : Inst) : Option Inst :=
  nextInstIn l.ebbs i

/-- The block following the first occurrence of key `e`. -/
def nextKey : List (Ebb × List Inst) → Ebb → Option Ebb
  | [], _ => none
  | (k, _) :: rest, e => if k = e then rest.head?.map Prod.fst else nextKey rest e

/-- `layout.next_ebb(ebb)`: the block after `ebb` in layout order. -/
def Layout.nextEbb (l : Layout) (e : Ebb) : Option Ebb :=
  nextKey l.ebbs e

/-- `layout.remove_inst(inst)`: unlink the instruction from the layout. -/
def Layout.removeInst (l : Layout) (i : Inst) : Layout :=
  ⟨l.ebbs.map (fun p => (p.1, p.2.filter (fun j => j != i)))⟩

/-- `layout.remove_ebb(ebb)`: unlink the block from the layout. -/
def Layout.removeEbb (l : Layout) (e : Ebb) : Layout :=
  ⟨l.ebbs.filter (fun p => p.1 != e)⟩

/-- `func.dfg.replace(inst).iconst(ty, 0)`. -/
def Dfg.replaceWithIconst (d : Dfg) (i : Inst) (ty : Ty) : Dfg :=
  { d with data := fun j => if j = i then .iconst ty 0 else d.data j }

/-- `func.dfg.replace(inst).trap(TrapCode::User(0))`. -/
def Dfg.replaceWithTrap (d : Dfg) (i : Inst) (code : Nat) : Dfg :=
  { d with data := fun j => if j = i then .trap code else d.data j }

/-- The function as the reducer sees it. -/
structure Function where
  layout : Layout
  dfg : Dfg

/-- Result of `next_inst_ret_prev`: it stepped the tracked position to
`(ebb, inst)` returning the previous instruction, reached the end of the
layout, or hit an `unwrap` panic (an empty block's `first_inst`). -/
inductive WalkRes where
  | stepTo (ebb : Ebb) (inst : Inst) (prev : Inst)
  | atEnd
  | unwrapFail

/-- The loop of `next_inst_ret_prev`, fuelled by the number of blocks
(each pass without returning moves to a strictly later block). -/
def walkGo (func : Function) : Nat → Ebb → Inst → WalkRes
  | 0, _, _ => .unwrapFail
  | Nat.succ n, ebb, inst =>
    match func.layout.nextInst inst with
    | some nxt => .stepTo ebb nxt inst
    | none =>
      match func.layout.nextEbb ebb with
      | some ne =>
        match func.layout.firstInst ne with
        | some fi => walkGo func n ne fi
        | none => .unwrapFail
      | none => .atEnd

/-- `next_inst_ret_prev(func, ebb, inst)` (lines 131–145): advance the
tracked `(ebb, inst)` position, returning the instruction it moved past;
cross block boundaries by jumping to the next block's first
instruction. -/
def nextInstRetPrev (func : Function) (ebb : Ebb) (inst : Inst) : WalkRes :=
  walkGo func (func.layout.ebbs.length + 1) ebb inst

/-- The reducer's phase state (lines 50–61). -/
inductive Phase where
  | Started
  | RemoveInst (ebb : Ebb) (inst : Inst)
  | ReplaceInstWithIconst (ebb : Ebb) (inst : Inst)
  | ReplaceInstWithTrap (ebb : Ebb) (inst : Inst)
  | RemoveEbb (ebb : Ebb)

/-- The result of one phase step (lines 63–68). -/
inductive PhaseStepResult where
  | Shrinked (msg : String)
  | NoChange
  | NextPhase (msg : String) (count : Nat)
  | Finished

/-- `Phase::step` (lines 71–128). `none` models the `unwrap` panics
(`entry_block().unwrap()`, `first_inst(..).unwrap()`); otherwise the
updated phase, the mutated function, and the step result. -/
def Phase.step (p : Phase) (func : Function) :
    Option (Phase × Function × PhaseStepResult) :=
  match func.layout.entryBlock with
  | none => none
  | some firstEbb =>
    match p with
    | .Started =>
      match func.layout.firstInst firstEbb with
      | none => none
      | some fi =>
        some (.RemoveInst firstEbb fi, func, .NextPhase "remove inst" func.dfg.numInsts)
    | .RemoveInst ebb inst =>
      match nextInstRetPrev func ebb inst with
      | .unwrapFail => none
      | .stepTo e2 i2 prev =>
        some (.RemoveInst e2 i2, { func with layout := func.layout.removeInst prev },
              .Shrinked ("Remove inst " ++ toString prev))
      | .atEnd =>
        match func.layout.firstInst firstEbb with
        | none => none
        | some fi =>
          some (.ReplaceInstWithIconst firstEbb fi, func,
                .NextPhase "replace inst with iconst" func.dfg.numInsts)
    | .ReplaceInstWithIconst ebb inst =>
      match nextInstRetPrev func ebb inst with
      | .unwrapFail => none
      | .stepTo e2 i2 prev =>
        match func.dfg.results prev with
        | [v] =>
          some (.ReplaceInstWithIconst e2 i2,
                { func with dfg := func.dfg.replaceWithIconst prev (func.dfg.valueType v) },
                .Shrinked ("Replace inst " ++ toString prev ++ " with iconst"))
        | _ => some (.ReplaceInstWithIconst e2 i2, func, .NoChange)
      | .atEnd =>
        match func.layout.firstInst firstEbb with
        | none => none
        | some fi =>
          some (.ReplaceInstWithTrap firstEbb fi, func,
                .NextPhase "replace inst with trap" func.dfg.numInsts)
    | .ReplaceInstWithTrap ebb inst =>
      match nextInstRetPrev func ebb inst with
      | .unwrapFail => none
      | .stepTo e2 i2 prev =>
        some (.ReplaceInstWithTrap e2 i2,
              { func with dfg := func.dfg.replaceWithTrap prev 0 },
              .Shrinked ("Replace inst " ++ toString prev ++ " with trap"))
      | .atEnd =>
        some (.RemoveEbb firstEbb, func, .NextPhase "remove ebb" func.dfg.numEbbs)
    | .RemoveEbb ebb =>
      match func.layout.nextEbb ebb with
      | some ne =>
        some (.RemoveEbb ne, { func with layout := func.layout.removeEbb ne },
              .Shrinked ("Remove ebb " ++ toString ebb))
      | none => some (.RemoveEbb ebb, func, .Finished)

/-- Outcome of submitting a candidate through verification and the
compile-and-emit pipeline (lines 204–208): compiled fine, rejected by the
verifier, or the pipeline panicked. The pipeline itself is external, so a
`check` function stands for `check_for_crash`. -/
inductive Res where
  | Succeed
  | Verifier (err : String)
  | Panic

/-- One iteration of `reduce`'s inner loop (lines 155–191): clone the
current function, apply the phase step to the clone, and commit the clone
only when the pipeline panics on it. Returns `none` on a phase-step
panic, otherwise the new phase, the new current function, the updated
`was_reduced` flag, and whether the inner loop finished. -/
def reduceIteration (check : Function → Res) (p : Phase) (func : Function)
    (wasReduced : Bool) : Option (Phase × Function × Bool × Bool) :=
  let func2 := func
  match p.step func2 with
  | none => none
  | some (p2, func2m, res) =>
    match res with
    | .Shrinked _ =>
      match check func2m with
      | .Succeed => some (p2, func, wasReduced, false)
      | .Verifier _ => some (p2, func, wasReduced, false)
      | .Panic => some (p2, func2m, true, false)
    | .NoChange => some (p2, func, wasReduced, false)
    | .NextPhase _ _ => some (p2, func, wasReduced, false)
    | .Finished => some (p2, func, wasReduced, true)

/-- A concrete two-block function used to exercise the reducer. -/
def funcW : Function :=
  { layout := ⟨[(0, [0, 1]), (1, [2])]⟩,
    dfg := { data := fun _ => .other 0,
             results := fun i => if i = 0 then [5] else [],
             valueType := fun _ => 3,
             numInsts := 3,
             numEbbs := 2 } }

/-- A pipeline stub on which every candidate panics. -/
def checkPanic : Function → Res := fun _ => .Panic

/-- A pipeline stub on which every candidate compiles fine. -/
def checkOk : Function → Res := fun _ => .Succeed

end Bugpoint

namespace Faerie

/-!
Embedding of the trap sink of the faerie object-emission backend
(`lib/faerie/src/backend.rs`, lines 212–217): `FaerieTrapSink` is a
fieldless struct whose `trap` callback ignores every trap annotation. The
callback receives only `&mut self`, so the struct itself is the entire
state it could touch.
-/

/-- `struct FaerieTrapSink {}`. -/
structure FaerieTrapSink where

/-- `fn trap(&mut self, _offset, _srcloc, _code) {}`: the trap-sink
callback, a no-op. -/
def FaerieTrapSink.trap (s : FaerieTrapSink) (_offset : Nat) (_srcloc : Nat)
    (_code : Nat) : FaerieTrapSink :=
  s

/-- Feed a whole sequence of trap annotations through the sink, as
`emit_to_memory` would during `define_function`. -/
def FaerieTrapSink.feedAll (s : FaerieTrapSink) (events : List (Nat × Nat × Nat)) :
    FaerieTrapSink :=
  events.foldl (fun acc ev => acc.trap ev.1 ev.2.1 ev.2.2) s

end Faerie

namespace Legalizer

@[simp]
theorem body_eta (b : Body) :
    ({ dfg := b.dfg, cfg := b.cfg, ebbs := b.ebbs, insts := b.insts } : Body) = b :=
  rfl

@[simp]
theorem func_eta (f : Func) :
    ({ body := f.body, enc := f.enc, sig := f.sig } : Func) = f :=
  rfl

@[simp]
theorem withBody_body (f : Func) (b : Body) : (f.withBody b).body = b :=
  rfl

@[simp]
theorem withBody_enc (f : Func) (b : Body) : (f.withBody b).enc = f.enc :=
  rfl

@[simp]
theorem withBody_sig (f : Func) (b : Body) : (f.withBody b).sig = f.sig :=
  rfl

@[simp]
theorem withBody_self (f : Func) : f.withBody f.body = f :=
  rfl

@[simp]
theorem withBody_withBody (f : Func) (b b2 : Body) :
    (f.withBody b).withBody b2 = f.withBody b2 :=
  rfl

@[simp]
theorem storeEnc_body (f : Func) (i : Inst) (e : Nat) : (storeEnc f i e).body = f.body :=
  rfl

@[simp]
theorem storeEnc_sig (f : Func) (i : Inst) (e : Nat) : (storeEnc f i e).sig = f.sig :=
  rfl

@[simp]
theorem resizeEnc_body (f : Func) (n : Nat) : (resizeEnc f n).body = f.body :=
  rfl

/-- The cursor at the top of a block sees the whole block. -/
theorem dropThrough_none (l : List Inst) : dropThrough none l = l := by
  cases l <;> rfl

/-- Unfolding `dropThrough` at a cons cell. -/
theorem dropThrough_cons (i x : Inst) (xs : List Inst) :
    dropThrough (some i) (x :: xs) = if x = i then xs else dropThrough (some i) xs :=
  rfl

/-- Elements of a cursor suffix are elements of the block. -/
theorem mem_of_mem_dropThrough :
    ∀ (pos : Option Inst) (l : List Inst) (a : Inst), a ∈ dropThrough pos l → a ∈ l := by
  intro pos l a h
  cases pos with
  | none => rw [dropThrough_none] at h; exact h
  | some p =>
    induction l with
    | nil => simp [dropThrough] at h
    | cons x xs ih =>
      rw [dropThrough_cons] at h
      by_cases hx : x = p
      · rw [if_pos hx] at h
        exact List.mem_cons_of_mem _ h
      · rw [if_neg hx] at h
        exact List.mem_cons_of_mem _ (ih h)

/-- Stepping the cursor to the instruction it just returned drops exactly
that instruction from the suffix, in a duplicate-free block. -/
theorem dropThrough_step :
    ∀ (l : List Inst) (pos : Option Inst) (i : Inst) (rest : List Inst),
      l.Nodup → dropThrough pos l = i :: rest → dropThrough (some i) l = rest := by
  intro l pos i rest hnd h
  cases pos with
  | none =>
    rw [dropThrough_none] at h
    subst h
    rw [dropThrough_cons, if_pos rfl]
  | some p =>
    induction l with
    | nil => simp [dropThrough] at h
    | cons x xs ih =>
      rw [dropThrough_cons] at h
      by_cases hx : x = p
      · rw [if_pos hx] at h
        subst h
        have hxi : x ≠ i := by
          intro hcontra
          exact (List.nodup_cons.mp hnd).1 (hcontra ▸ List.mem_cons_self i rest)
        rw [dropThrough_cons, if_neg hxi, dropThrough_cons, if_pos rfl]
      · rw [if_neg hx] at h
        have hmem : i ∈ xs :=
          mem_of_mem_dropThrough (some p) xs i (h ▸ List.mem_cons_self i rest)
        have hxi : x ≠ i := by
          intro hcontra
          exact (List.nodup_cons.mp hnd).1 (hcontra ▸ hmem)
        rw [dropThrough_cons, if_neg hxi]
        exact ih (List.nodup_cons.mp hnd).2 h

/-- A cursor standing on the last instruction of a processed prefix sees
exactly the remaining suffix, in a duplicate-free block. -/
theorem dropThrough_append :
    ∀ (T : List Inst) (p : Inst) (R : List Inst), ((T ++ [p]) ++ R).Nodup →
      dropThrough (some p) ((T ++ [p]) ++ R) = R := by
  intro T
  induction T with
  | nil =>
    intro p R _
    rw [List.nil_append, List.cons_append, List.nil_append, dropThrough_cons, if_pos rfl]
  | cons x T ih =>
    intro p R hnd
    have hnd2 : (x :: ((T ++ [p]) ++ R)).Nodup := by simpa using hnd
    have hx : x ≠ p := by
      intro hcontra
      have hmem : x ∈ (T ++ [p]) ++ R := by simp [hcontra]
      exact (List.nodup_cons.mp hnd2).1 hmem
    show dropThrough (some p) (x :: ((T ++ [p]) ++ R)) = R
    rw [dropThrough_cons, if_neg hx]
    exact ih p R (List.nodup_cons.mp hnd2).2

/-- Claim C9: the object-emission backend's trap sink ignores trap
annotations — for every code offset, source location and trap code the
callback is a no-op, and feeding any sequence of trap annotations through
it leaves the sink state unchanged. -/
theorem faerie_trap_sink_ignores_traps :
    (∀ (s : Faerie.FaerieTrapSink) (offset srcloc code : Nat),
        Faerie.FaerieTrapSink.trap s offset srcloc code = s)
    ∧ (∀ (s : Faerie.FaerieTrapSink) (events : List (Nat × Nat × Nat)),
        Faerie.FaerieTrapSink.feedAll s events = s) := by
  constructor
  · intro s _ _ _
    rfl
  · intro s events
    induction events with
    | nil => rfl
    | cons e rest ih => exact ih

/-- Claim C2: in the driver's per-instruction loop, a successful encoding
query stores the returned encoding in the instruction's encoding-table
slot and the loop advances past the instruction; a failed query yields one
of exactly the two actions `Expand` and `Narrow`, dispatched respectively
to the `expand` and `narrow` entry points (the dispatch is exhaustive over
the closed action type, so no other action value exists); a rewrite that
reports a change makes the loop resume at the saved position preceding
the instruction, and a rewrite that reports no change makes the loop
advance without storing an encoding for the instruction. -/
theorem encode_query_dispatch (or : Oracles) (f : Func) (ebb : Ebb) (inst : Inst) :
    (∀ e : Nat,
        or.encode f.body.dfg (f.body.dfg.data inst) (f.body.dfg.ctrlTypevar inst) = .ok e →
        encodeStep or f ebb inst = .advanced (storeEnc f inst e)
        ∧ (storeEnc f inst e).enc inst = some e)
    ∧ (∀ a : Legalize,
        or.encode f.body.dfg (f.body.dfg.data inst) (f.body.dfg.ctrlTypevar inst) = .error a →
        (a = .Expand ∨ a = .Narrow)
        ∧ (a = .Expand → legalizeDispatch or a f.body ebb inst = or.expand f.body ebb inst)
        ∧ (a = .Narrow → legalizeDispatch or a f.body ebb inst = or.narrow f.body ebb inst)
        ∧ ((legalizeDispatch or a f.body ebb inst).2 = true →
             encodeStep or f ebb inst =
               .rewound (f.withBody (legalizeDispatch or a f.body ebb inst).1))
        ∧ ((legalizeDispatch or a f.body ebb inst).2 = false →
             encodeStep or f ebb inst =
               .advanced (f.withBody (legalizeDispatch or a f.body ebb inst).1)
             ∧ (f.withBody (legalizeDispatch or a f.body ebb inst).1).enc = f.enc))
    ∧ (∀ (fuel : Nat) (pos prevPos : Option Inst) (f1 : Func),
        nextInst f ebb pos = some inst →
        (instStep or f ebb inst = .rewound f1 →
           ebbLoop or (fuel + 1) f ebb pos prevPos = ebbLoop or fuel f1 ebb prevPos prevPos)
        ∧ (instStep or f ebb inst = .advanced f1 →
           ebbLoop or (fuel + 1) f ebb pos prevPos =
             ebbLoop or fuel f1 ebb (some inst) (some inst))) := by
  refine ⟨?_, ?_, ?_⟩
  · intro e he
    constructor
    · simp [encodeStep, he]
    · simp [storeEnc]
  · intro a ha
    refine ⟨?_, ?_, ?_, ?_, ?_⟩
    · cases a
      · exact Or.inl rfl
      · exact Or.inr rfl
    · intro h; subst h; rfl
    · intro h; subst h; rfl
    · intro h2
      simp [encodeStep, ha, h2]
    · intro h2
      constructor
      · simp [encodeStep, ha, h2]
      · rfl
  · intro fuel pos prevPos f1 hnext
    constructor
    · intro hstep
      simp only [ebbLoop, hnext, hstep]
    · intro hstep
      simp only [ebbLoop, hnext, hstep]

/-- Claim C2, applied: with the concrete collaborators `orW`, whose
selector always answers with recipe `7`, the query stage of the loop body
stores that encoding. -/
theorem encode_query_dispatch_witness :
    encodeStep orW fW 0 0 = .advanced (storeEnc fW 0 7)
    ∧ (storeEnc fW 0 7).enc 0 = some 7 :=
  (encode_query_dispatch orW fW 0 0).1 7 rfl

/-- Claim C4: a call instruction whose ABI handler reports an insertion
(and likewise a return instruction) makes the loop body end in a rewind
carrying exactly the handler's output; the encoding table is untouched
and the result does not depend on the encoding selector or the rewrite
engine, so the selector is not queried in that iteration; the loop then
resumes at the saved position preceding the instruction, and an
instruction sequence freshly inserted between that position and the
boundary instruction is exactly what the cursor visits next. -/
theorem abi_insertion_rewinds (or : Oracles) (f : Func) (ebb : Ebb) (inst : Inst) :
    ((f.body.dfg.data inst).opcode.isCall = true →
      (or.handleCallAbi f.body ebb inst).2 = true →
      instStep or f ebb inst = .rewound (f.withBody (or.handleCallAbi f.body ebb inst).1)
      ∧ (f.withBody (or.handleCallAbi f.body ebb inst).1).enc = f.enc
      ∧ (∀ or2 : Oracles, or2.handleCallAbi = or.handleCallAbi →
           instStep or2 f ebb inst = instStep or f ebb inst))
    ∧ ((f.body.dfg.data inst).opcode.isCall = false →
      (f.body.dfg.data inst).opcode.isReturn = true →
      (or.handleReturnAbi f.body f.sig ebb inst).2 = true →
      instStep or f ebb inst = .rewound (f.withBody (or.handleReturnAbi f.body f.sig ebb inst).1)
      ∧ (f.withBody (or.handleReturnAbi f.body f.sig ebb inst).1).enc = f.enc
      ∧ (∀ or2 : Oracles, or2.handleReturnAbi = or.handleReturnAbi →
           instStep or2 f ebb inst = instStep or f ebb inst))
    ∧ (∀ (fuel : Nat) (pos prevPos : Option Inst) (f1 : Func),
        nextInst f ebb pos = some inst →
        instStep or f ebb inst = .rewound f1 →
        ebbLoop or (fuel + 1) f ebb pos prevPos = ebbLoop or fuel f1 ebb prevPos prevPos)
    ∧ (∀ (b1 : Body) (pre news post : List Inst),
        f.body.insts ebb = pre ++ inst :: post →
        b1.insts ebb = pre ++ (news ++ inst :: post) →
        (pre ++ (news ++ inst :: post)).Nodup →
        (pre = [] → nextInst (f.withBody b1) ebb none = (news ++ inst :: post).head?)
        ∧ (∀ (T : List Inst) (p : Inst), pre = T ++ [p] →
             nextInst (f.withBody b1) ebb (some p) = (news ++ inst :: post).head?)) := by
  refine ⟨?_, ?_, ?_, ?_⟩
  · intro hc hch
    refine ⟨?_, rfl, ?_⟩
    · simp [instStep, hc, hch]
    · intro or2 h2
      simp [instStep, hc, hch, h2]
  · intro hc hr hrch
    refine ⟨?_, rfl, ?_⟩
    · simp [instStep, retEncodeStep, hc, hr, hrch]
    · intro or2 h2
      simp [instStep, retEncodeStep, hc, hr, hrch, h2]
  · intro fuel pos prevPos f1 hnext hstep
    simp only [ebbLoop, hnext, hstep]
  · intro b1 pre news post hold hnew hnd
    constructor
    · intro hpre
      subst hpre
      simp only [List.nil_append] at hnew
      simp [nextInst, hnew, dropThrough_none]
    · intro T p hpre
      subst hpre
      have h1 : b1.insts ebb = (T ++ [p]) ++ (news ++ inst :: post) := by
        rw [hnew, List.append_assoc]
      have h2 : ((T ++ [p]) ++ (news ++ inst :: post)).Nodup := by
        simpa [List.append_assoc] using hnd
      simp only [nextInst, withBody_body, h1]
      rw [dropThrough_append T p (news ++ inst :: post) h2]

/-- Claim C4, applied: with a call-ABI handler that reports an insertion,
the loop body on the concrete call instruction rewinds with the handler's
output and an unchanged encoding table. -/
theorem abi_insertion_rewinds_witness :
    instStep orCall fCall 0 0 = .rewound (fCall.withBody (orCall.handleCallAbi fCall.body 0 0).1)
    ∧ (fCall.withBody (orCall.handleCallAbi fCall.body 0 0).1).enc = fCall.enc :=
  ⟨((abi_insertion_rewinds orCall fCall 0 0).1 rfl rfl).1,
   ((abi_insertion_rewinds orCall fCall 0 0).1 rfl rfl).2.1⟩

/-- Claim C7: the driver is deterministic — two runs on componentwise
identical inputs (function layout, data-flow graph, control-flow graph,
encoding table, signature, dominator-tree postorder, and the same target
collaborators) produce identical outputs, in particular the same
instruction sequences and the same encoding table. -/
theorem legalize_function_deterministic (or : Oracles) (fuel fuel2 : Nat)
    (po po2 : List Ebb) (f f2 : Func)
    (hfuel : fuel = fuel2) (hpo : po = po2)
    (hdata : f.body.dfg.data = f2.body.dfg.data)
    (hnum : f.body.dfg.numInsts = f2.body.dfg.numInsts)
    (hcfg : f.body.cfg = f2.body.cfg)
    (hebbs : f.body.ebbs = f2.body.ebbs)
    (hinsts : f.body.insts = f2.body.insts)
    (henc : f.enc = f2.enc)
    (hsig : f.sig = f2.sig) :
    legalize_function or fuel po f = legalize_function or fuel2 po2 f2
    ∧ (legalize_function or fuel po f).body.insts =
        (legalize_function or fuel2 po2 f2).body.insts
    ∧ (legalize_function or fuel po f).enc = (legalize_function or fuel2 po2 f2).enc := by
  have hf : f = f2 := by
    obtain ⟨⟨⟨d, n⟩, c, eb, is⟩, e, s⟩ := f
    obtain ⟨⟨⟨d2, n2⟩, c2, eb2, is2⟩, e2, s2⟩ := f2
    simp only at hdata hnum hcfg hebbs hinsts henc hsig
    subst hdata hnum hcfg hebbs hinsts henc hsig
    rfl
  subst hf hfuel hpo
  exact ⟨rfl, rfl, rfl⟩

/-- Claim C7, applied: two runs on the concrete function agree. -/
theorem legalize_function_deterministic_witness :
    legalize_function orW 2 [0] fW = legalize_function orW 2 [0] fW
    ∧ (legalize_function orW 2 [0] fW).enc = (legalize_function orW 2 [0] fW).enc :=
  ⟨(legalize_function_deterministic orW 2 2 [0] [0] fW fW rfl rfl rfl rfl rfl rfl rfl rfl
      rfl).1,
   (legalize_function_deterministic orW 2 2 [0] [0] fW fW rfl rfl rfl rfl rfl rfl rfl rfl
      rfl).2.2⟩

end Legalizer

namespace Bugpoint

/-- Claim C8: each step of the reducer's inner loop applies the phase's
mutation to a clone of the current function and commits the clone as the
new current function exactly when the pipeline panics on it; when the
pipeline succeeds or the verifier rejects the clone (and on the
bookkeeping outcomes that mutate nothing), the current function is left
unchanged. -/
theorem reduce_commits_only_on_panic (check : Function → Res) (p : Phase)
    (func : Function) (w : Bool) :
    (∀ (p2 : Phase) (f2 : Function) (msg : String),
        p.step func = some (p2, f2, .Shrinked msg) →
        (check f2 = .Panic → reduceIteration check p func w = some (p2, f2, true, false))
        ∧ (check f2 = .Succeed → reduceIteration check p func w = some (p2, func, w, false))
        ∧ (∀ e, check f2 = .Verifier e →
             reduceIteration check p func w = some (p2, func, w, false)))
    ∧ (∀ (p2 : Phase) (f2 : Function), p.step func = some (p2, f2, .NoChange) →
         reduceIteration check p func w = some (p2, func, w, false))
    ∧ (∀ (p2 : Phase) (f2 : Function) (m : String) (c : Nat),
         p.step func = some (p2, f2, .NextPhase m c) →
         reduceIteration check p func w = some (p2, func, w, false))
    ∧ (∀ (p2 : Phase) (f2 : Function), p.step func = some (p2, f2, .Finished) →
         reduceIteration check p func w = some (p2, func, w, true)) := by
  refine ⟨?_, ?_, ?_, ?_⟩
  · intro p2 f2 msg hstep
    refine ⟨?_, ?_, ?_⟩
    · intro hc
      simp [reduceIteration, hstep, hc]
    · intro hc
      simp [reduceIteration, hstep, hc]
    · intro e hc
      simp [reduceIteration, hstep, hc]
  · intro p2 f2 hstep
    simp [reduceIteration, hstep]
  · intro p2 f2 m c hstep
    simp [reduceIteration, hstep]
  · intro p2 f2 hstep
    simp [reduceIteration, hstep]

/-- Claim C8, applied: on the concrete function, removing the first
instruction is committed when the pipeline stub panics and discarded when
it succeeds. -/
theorem reduce_commits_only_on_panic_witness :
    reduceIteration checkPanic (.RemoveInst 0 0) funcW false =
      some (.RemoveInst 0 1, { funcW with layout := funcW.layout.removeInst 0 }, true, false)
    ∧ reduceIteration checkOk (.RemoveInst 0 0) funcW false =
      some (.RemoveInst 0 1, funcW, false, false) :=
  ⟨((reduce_commits_only_on_panic checkPanic (.RemoveInst 0 0) funcW false).1
      (.RemoveInst 0 1) ({ funcW with layout := funcW.layout.removeInst 0 })
      ("Remove inst " ++ toString 0) rfl).1 rfl,
   ((reduce_commits_only_on_panic checkOk (.RemoveInst 0 0) funcW false).1
      (.RemoveInst 0 1) ({ funcW with layout := funcW.layout.removeInst 0 })
      ("Remove inst " ++ toString 0) rfl).2.1 rfl⟩

/-- Splitting duplicate-freeness of block keys at a cons cell. -/
theorem nodup_keys_cons {k : Ebb} {v : List Inst} {rest : List (Ebb × List Inst)}
    (h : (((k, v) :: rest).map Prod.fst).Nodup) :
    k ∉ rest.map Prod.fst ∧ (rest.map Prod.fst).Nodup := by
  rw [List.map_cons] at h
  exact List.nodup_cons.mp h

/-- A successor produced by `nextKey` from the head key is the key right
after the head. -/
theorem nextKey_head_mem {rest : List (Ebb × List Inst)} {ne : Ebb}
    (h : rest.head?.map Prod.fst = some ne) : ne ∈ rest.map Prod.fst := by
  cases rest with
  | nil => simp at h
  | cons kv2 rest2 =>
    have h2 : kv2.1 = ne := by
      have : (kv2 :: rest2).head? = some kv2 := rfl
      rw [this] at h
      exact Option.some.inj h
    rw [List.map_cons]
    exact h2 ▸ List.mem_cons_self _ _

/-- A block successor found by `nextKey` is one of the layout's keys. -/
theorem nextKey_mem :
    ∀ (l : List (Ebb × List Inst)) (e ne : Ebb),
      nextKey l e = some ne → ne ∈ l.map Prod.fst := by
  intro l
  induction l with
  | nil => intro e ne h; simp [nextKey] at h
  | cons kv rest ih =>
    intro e ne h
    obtain ⟨k, v⟩ := kv
    simp only [nextKey] at h
    rw [List.map_cons]
    by_cases hk : k = e
    · rw [if_pos hk] at h
      exact List.mem_cons_of_mem _ (nextKey_head_mem h)
    · rw [if_neg hk] at h
      exact List.mem_cons_of_mem _ (ih e ne h)

/-- In a layout with duplicate-free block keys, a block's successor is
never the block itself. -/
theorem nextKey_ne_self :
    ∀ (l : List (Ebb × List Inst)) (e ne : Ebb), (l.map Prod.fst).Nodup →
      nextKey l e = some ne → ne ≠ e := by
  intro l
  induction l with
  | nil => intro e ne _ h; simp [nextKey] at h
  | cons kv rest ih =>
    intro e ne hnd h
    obtain ⟨k, v⟩ := kv
    simp only [nextKey] at h
    have hnd2 := nodup_keys_cons hnd
    by_cases hk : k = e
    · rw [if_pos hk] at h
      have hmem : ne ∈ rest.map Prod.fst := nextKey_head_mem h
      intro hcontra
      apply hnd2.1
      rw [hk, ← hcontra]
      exact hmem
    · rw [if_neg hk] at h
      exact ih e ne hnd2.2 h

/-- In a layout with duplicate-free block keys, no block's successor is
the first block. -/
theorem nextKey_ne_head :
    ∀ (k : Ebb) (v : List Inst) (rest : List (Ebb × List Inst)) (e ne : Ebb),
      (((k, v) :: rest).map Prod.fst).Nodup →
      nextKey ((k, v) :: rest) e = some ne → ne ≠ k := by
  intro k v rest e ne hnd h
  simp only [nextKey] at h
  have hnd2 := nodup_keys_cons hnd
  by_cases hk : k = e
  · rw [if_pos hk] at h
    have hmem : ne ∈ rest.map Prod.fst := nextKey_head_mem h
    intro hcontra
    exact hnd2.1 (hcontra ▸ hmem)
  · rw [if_neg hk] at h
    have hmem := nextKey_mem rest e ne h
    intro hcontra
    exact hnd2.1 (hcontra ▸ hmem)

/-- Removing a non-entry block keeps the entry block first. -/
theorem entryBlock_removeEbb (l : Layout) (k : Ebb) (v : List Inst)
    (rest : List (Ebb × List Inst)) (ne : Ebb)
    (hl : l.ebbs = (k, v) :: rest) (hne : ne ≠ k) :
    (l.removeEbb ne).entryBlock = some k := by
  have hkeep : ((k, v).1 != ne) = true := by
    rw [bne_iff_ne]
    exact fun hcontra => hne hcontra.symm
  simp [Layout.removeEbb, Layout.entryBlock, hl, List.filter_cons, hkeep]

/-- Claim C10: in the reducer's block-removal phase, each shrinking step
removes the layout successor of the currently tracked block — never the
tracked block itself — so in a layout with duplicate-free block keys the
function's entry block is never the one removed and remains the entry
block afterwards. -/
theorem remove_ebb_removes_successor (func : Function) (e : Ebb)
    (hnd : (func.layout.ebbs.map Prod.fst).Nodup) :
    ∀ (p2 : Phase) (f2 : Function) (msg : String),
      Phase.step (.RemoveEbb e) func = some (p2, f2, .Shrinked msg) →
      ∃ ne, func.layout.nextEbb e = some ne
        ∧ p2 = .RemoveEbb ne
        ∧ f2.layout = func.layout.removeEbb ne
        ∧ ne ≠ e
        ∧ (∀ ent, func.layout.entryBlock = some ent →
             ne ≠ ent ∧ f2.layout.entryBlock = some ent) := by
  intro p2 f2 msg hstep
  cases hent : func.layout.entryBlock with
  | none => simp [Phase.step, hent] at hstep
  | some fe =>
    cases hne : func.layout.nextEbb e with
    | none => simp [Phase.step, hent, hne] at hstep
    | some ne =>
      simp only [Phase.step, hent, hne, Option.some.injEq, Prod.mk.injEq] at hstep
      obtain ⟨hp2, hf2, _⟩ := hstep
      have hnekey : nextKey func.layout.ebbs e = some ne := hne
      obtain ⟨k0, v0, rest, hl⟩ : ∃ k0 v0 rest, func.layout.ebbs = (k0, v0) :: rest := by
        cases hebbs : func.layout.ebbs with
        | nil => simp [Layout.entryBlock, hebbs] at hent
        | cons kv rest =>
          obtain ⟨k0, v0⟩ := kv
          exact ⟨k0, v0, rest, rfl⟩
      have hfe : fe = k0 := by
        simp [Layout.entryBlock, hl] at hent
        exact hent.symm
      have hndl : (((k0, v0) :: rest).map Prod.fst).Nodup := by
        rw [← hl]; exact hnd
      have hnel : nextKey ((k0, v0) :: rest) e = some ne := by
        rw [← hl]; exact hnekey
      have hnehead : ne ≠ k0 := nextKey_ne_head k0 v0 rest e ne hndl hnel
      refine ⟨ne, rfl, hp2.symm, ?_, ?_, ?_⟩
      · rw [← hf2]
      · exact nextKey_ne_self func.layout.ebbs e ne hnd hnekey
      · intro ent hent2
        have hentk : ent = k0 := by
          have hfeent : fe = ent := Option.some.inj hent2
          rw [← hfeent]
          exact hfe
        subst hentk
        refine ⟨hnehead, ?_⟩
        rw [← hf2]
        exact entryBlock_removeEbb func.layout ent v0 rest ne hl hnehead

/-- Claim C10, applied: on the concrete two-block function, the
block-removal step tracked at the entry block removes block `1`, not the
tracked entry block `0`, and block `0` stays the entry block. -/
theorem remove_ebb_removes_successor_witness :
    ∃ ne, funcW.layout.nextEbb 0 = some ne
      ∧ (Phase.RemoveEbb 1 : Phase) = .RemoveEbb ne
      ∧ ({ funcW with layout := funcW.layout.removeEbb 1 } : Function).layout =
          funcW.layout.removeEbb ne
      ∧ ne ≠ 0
      ∧ (∀ ent, funcW.layout.entryBlock = some ent →
           ne ≠ ent ∧ ({ funcW with layout := funcW.layout.removeEbb 1 } :
             Function).layout.entryBlock = some ent) :=
  remove_ebb_removes_successor funcW 0 (by decide) (.RemoveEbb 1)
    ({ funcW with layout := funcW.layout.removeEbb 1 }) ("Remove ebb " ++ toString 0) rfl

end Bugpoint

namespace Legalizer

/-- The instrumented block loop computes the same function as the plain
block loop. -/
theorem ebbLoopTr_fst (or : Oracles) (ebb : Ebb) :
    ∀ (n : Nat) (f : Func) (pos prevPos : Option Inst),
      (ebbLoopTr or n f ebb pos prevPos).1 = ebbLoop or n f ebb pos prevPos := by
  intro n
  induction n with
  | zero => intro f pos prevPos; rfl
  | succ m ih =>
    intro f pos prevPos
    cases hn : nextInst f ebb pos with
    | none => simp only [ebbLoopTr, ebbLoop, hn]
    | some inst =>
      cases hs : instStep or f ebb inst with
      | rewound f1 => simp only [ebbLoopTr, ebbLoop, hn, hs, ih]
      | advanced f1 => simp only [ebbLoopTr, ebbLoop, hn, hs, ih]

/-- The instrumented driver fold computes the same function as the plain
driver fold. -/
theorem foldl_trStep_fst (or : Oracles) (fuel : Nat) :
    ∀ (l : List Ebb) (acc : Func × List (Ebb × List Inst)),
      (l.foldl (trStep or fuel) acc).1 =
        l.foldl (fun g ebb => ebbLoop or fuel g ebb none none) acc.1 := by
  intro l
  induction l with
  | nil => intro acc; rfl
  | cons e l ih =>
    intro acc
    simp only [List.foldl_cons]
    rw [ih]
    simp only [trStep, ebbLoopTr_fst]

/-- The instrumented driver visits exactly the blocks of the given list,
in order. -/
theorem foldl_trStep_keys (or : Oracles) (fuel : Nat) :
    ∀ (l : List Ebb) (acc : Func × List (Ebb × List Inst)),
      ((l.foldl (trStep or fuel) acc).2).map Prod.fst = acc.2.map Prod.fst ++ l := by
  intro l
  induction l with
  | nil => intro acc; simp
  | cons e l ih =>
    intro acc
    simp only [List.foldl_cons]
    rw [ih]
    simp [trStep]

/-- Under never-rewinding collaborators the loop body always advances,
storing an encoding for the current instruction and leaving the body
untouched. -/
theorem instStep_noRw {or : Oracles} (H : NoRw or) (f : Func) (ebb : Ebb) (inst : Inst) :
    ∃ enc, instStep or f ebb inst = .advanced (storeEnc f inst enc) := by
  obtain ⟨h1, h2, h3, h4⟩ := H
  obtain ⟨enc, henc⟩ := h4 f.body.dfg (f.body.dfg.data inst) (f.body.dfg.ctrlTypevar inst)
  refine ⟨enc, ?_⟩
  simp [instStep, retEncodeStep, branchEncodeStep, h1, h2, h3, encodeStep, henc]

/-- Under never-rewinding collaborators, a block traversal started
anywhere visits exactly the cursor suffix, top to bottom, and leaves the
body unchanged. -/
theorem ebbLoopTr_noRw {or : Oracles} (H : NoRw or) (ebb : Ebb) :
    ∀ (R : List Inst) (n : Nat) (f : Func) (pos : Option Inst),
      dropThrough pos (f.body.insts ebb) = R → (f.body.insts ebb).Nodup →
      R.length < n →
      (ebbLoopTr or n f ebb pos pos).2 = R
      ∧ (ebbLoopTr or n f ebb pos pos).1.body = f.body := by
  intro R
  induction R with
  | nil =>
    intro n f pos hR hnd hlen
    cases n with
    | zero => omega
    | succ m =>
      have hnext : nextInst f ebb pos = none := by
        simp [nextInst, hR]
      refine ⟨?_, ?_⟩ <;> simp [ebbLoopTr, hnext]
  | cons i R2 ih =>
    intro n f pos hR hnd hlen
    cases n with
    | zero => omega
    | succ m =>
      have hnext : nextInst f ebb pos = some i := by
        simp [nextInst, hR]
      obtain ⟨enc, hstep⟩ := instStep_noRw H f ebb i
      have hR2 : dropThrough (some i) ((storeEnc f i enc).body.insts ebb) = R2 := by
        show dropThrough (some i) (f.body.insts ebb) = R2
        exact dropThrough_step (f.body.insts ebb) pos i R2 hnd hR
      have hrec := ih m (storeEnc f i enc) (some i) hR2
        (by show (f.body.insts ebb).Nodup; exact hnd) (by simpa using Nat.lt_of_succ_lt_succ hlen)
      simp only [ebbLoopTr, hnext, hstep]
      refine ⟨?_, ?_⟩
      · simp only [hrec.1]
      · exact hrec.2

/-- Under never-rewinding collaborators the driver fold leaves the body
unchanged and records, for each block of the list in order, exactly that
block's instruction sequence. -/
theorem foldl_trStep_noRw {or : Oracles} (H : NoRw or) (fuel : Nat) :
    ∀ (l : List Ebb) (acc : Func × List (Ebb × List Inst)) (B : Body),
      acc.1.body = B →
      (∀ e ∈ l, (B.insts e).Nodup ∧ (B.insts e).length < fuel) →
      (l.foldl (trStep or fuel) acc).2 = acc.2 ++ l.map (fun e => (e, B.insts e))
      ∧ (l.foldl (trStep or fuel) acc).1.body = B := by
  intro l
  induction l with
  | nil => intro acc B hB _; simpa using hB
  | cons e l ih =>
    intro acc B hB hcond
    have hce := hcond e (List.mem_cons_self e l)
    have ht := ebbLoopTr_noRw H e (B.insts e) fuel acc.1 none
      (by rw [hB, dropThrough_none]) (by rw [hB]; exact hce.1) hce.2
    simp only [List.foldl_cons]
    have hstep1 : (trStep or fuel acc e).1.body = B := by
      simp only [trStep]
      rw [ht.2, hB]
    have hrec := ih (trStep or fuel acc e) B hstep1
      (fun e2 he2 => hcond e2 (List.mem_cons_of_mem _ he2))
    refine ⟨?_, hrec.2⟩
    rw [hrec.1]
    simp only [trStep]
    rw [ht.1]
    simp

/-- Claim C5: the driver visits extended basic blocks in the reverse of
the dominator tree's postorder sequence (the instrumented run, which
computes the same result, records exactly `postorder.reverse` as its
block visitation order), and within each block it walks instructions from
the top: the cursor at the top of a block yields the block's first
instruction, and under never-rewinding collaborators the recorded
instruction trace of every visited block is exactly that block's
instruction sequence, top to bottom. -/
theorem legalize_visit_order (or : Oracles) (fuel : Nat) (po : List Ebb) (f : Func) :
    ((legalizeFunctionTr or fuel po f).2.map Prod.fst = po.reverse)
    ∧ ((legalizeFunctionTr or fuel po f).1 = legalize_function or fuel po f)
    ∧ (∀ (g : Func) (e : Ebb), nextInst g e none = (g.body.insts e).head?)
    ∧ (NoRw or →
       (∀ e, ((or.legalizeSignatures f).body.insts e).Nodup) →
       (∀ e ∈ po, ((or.legalizeSignatures f).body.insts e).length < fuel) →
       (legalizeFunctionTr or fuel po f).2 =
         po.reverse.map (fun e => (e, (or.legalizeSignatures f).body.insts e))) := by
  refine ⟨?_, ?_, ?_, ?_⟩
  · show ((po.reverse.foldl (trStep or fuel) (_, [])).2).map Prod.fst = po.reverse
    rw [foldl_trStep_keys]
    simp
  · show (resizeEnc (po.reverse.foldl (trStep or fuel) (_, [])).1 _, _).1 = _
    simp only [legalizeFunctionTr, legalize_function]
    rw [foldl_trStep_fst]
  · intro g e
    rw [nextInst, dropThrough_none]
  · intro H hnd hlen
    have := foldl_trStep_noRw H fuel po.reverse
      (resizeEnc (or.legalizeSignatures f) (or.legalizeSignatures f).body.dfg.numInsts, [])
      (or.legalizeSignatures f).body rfl
      (fun e he => ⟨hnd e, hlen e (List.mem_reverse.mp he)⟩)
    show (po.reverse.foldl (trStep or fuel) (_, [])).2 = _
    rw [this.1]
    simp

/-- Claim C5, applied: on the concrete function, the instrumented run
visits block `0` (the whole reversed postorder) and records its
instruction sequence `[0]` top to bottom. -/
theorem legalize_visit_order_witness :
    ((legalizeFunctionTr orW 2 [0] fW).2.map Prod.fst = [0])
    ∧ ((legalizeFunctionTr orW 2 [0] fW).2 =
        [0].reverse.map (fun e => (e, (orW.legalizeSignatures fW).body.insts e))) :=
  ⟨(legalize_visit_order orW 2 [0] fW).1,
   (legalize_visit_order orW 2 [0] fW).2.2.2
     ⟨fun _ _ _ => rfl, fun _ _ _ _ => rfl, fun _ _ => rfl, fun _ _ _ => ⟨7, rfl⟩⟩
     (by
       intro e
       by_cases he : e = 0 <;> simp [orW, fW, he])
     (by
       intro e he
       have : e = 0 := by simpa using he
       subst this
       simp [orW, fW])⟩

/-- On an already-legal state, the loop body leaves the function exactly
as it is and advances. -/
theorem instStep_fix {or : Oracles} {po : List Ebb} {g : Func}
    (AL : AlreadyLegal or po g) {e : Ebb} (he : e ∈ po) {inst : Inst}
    (hi : inst ∈ g.body.insts e) :
    instStep or g e inst = .advanced g := by
  obtain ⟨hcall, hret, hbr, hok, herr⟩ := AL.2.2.2 e he inst hi
  have hcore : encodeStep or g e inst = .advanced g := by
    cases henc : or.encode g.body.dfg (g.body.dfg.data inst) (g.body.dfg.ctrlTypevar inst) with
    | ok enc =>
      have hval := hok enc henc
      have hstore : storeEnc g inst enc = g := by
        show ({ g with enc := fun j => if j = inst then some enc else g.enc j } : Func) = g
        have hfn : (fun j => if j = inst then some enc else g.enc j) = g.enc := by
          funext j
          by_cases hj : j = inst
          · rw [if_pos hj, hj]
            exact hval.symm
          · rw [if_neg hj]
        rw [hfn]
      simp [encodeStep, henc, hstore]
    | error a =>
      have hdisp := herr a henc
      simp [encodeStep, henc, hdisp]
  have h1 : (if (g.body.dfg.data inst).opcode.isCall = true
      then or.handleCallAbi g.body e inst else (g.body, false)) = (g.body, false) := by
    by_cases hc : (g.body.dfg.data inst).opcode.isCall = true
    · rw [if_pos hc]
      exact hcall hc
    · rw [if_neg hc]
  have h2 : (if (g.body.dfg.data inst).opcode.isReturn = true
      then or.handleReturnAbi g.body g.sig e inst else (g.body, false)) = (g.body, false) := by
    by_cases hr : (g.body.dfg.data inst).opcode.isReturn = true
    · rw [if_pos hr]
      exact hret hr
    · rw [if_neg hr]
  by_cases hb : (g.body.dfg.data inst).opcode.isBranch = true
  · simp [instStep, retEncodeStep, branchEncodeStep, h1, h2, hb, hbr hb, hcore]
  · simp [instStep, retEncodeStep, branchEncodeStep, h1, h2, hb, hcore]

/-- On an already-legal state, a whole block traversal leaves the
function exactly as it is. -/
theorem ebbLoop_fix {or : Oracles} {g : Func} {ebb : Ebb}
    (hstep : ∀ inst ∈ g.body.insts ebb, instStep or g ebb inst = .advanced g)
    (hnd : (g.body.insts ebb).Nodup) :
    ∀ (R : List Inst) (n : Nat) (pos : Option Inst),
      dropThrough pos (g.body.insts ebb) = R → R.length < n →
      ebbLoop or n g ebb pos pos = g := by
  intro R
  induction R with
  | nil =>
    intro n pos hR hlen
    cases n with
    | zero => omega
    | succ m =>
      have hnext : nextInst g ebb pos = none := by simp [nextInst, hR]
      simp [ebbLoop, hnext]
  | cons i R2 ih =>
    intro n pos hR hlen
    cases n with
    | zero => omega
    | succ m =>
      have hnext : nextInst g ebb pos = some i := by simp [nextInst, hR]
      have hi : i ∈ g.body.insts ebb :=
        mem_of_mem_dropThrough pos _ i (hR ▸ List.mem_cons_self i R2)
      have hR2 := dropThrough_step (g.body.insts ebb) pos i R2 hnd hR
      simp only [ebbLoop, hnext, hstep i hi]
      exact ih m (some i) hR2 (by simp at hlen ⊢; omega)

/-- On an already-legal state the whole pass is a fixed point. -/
theorem legalize_fix {or : Oracles} {po : List Ebb} {fuel : Nat} {g : Func}
    (AL : AlreadyLegal or po g)
    (hfuel : ∀ e ∈ po, (g.body.insts e).length < fuel) :
    legalize_function or fuel po g = g := by
  have hresize : resizeEnc g g.body.dfg.numInsts = g := by
    show ({ g with enc := fun j => if j < g.body.dfg.numInsts then g.enc j else none } :
      Func) = g
    have hfn : (fun j => if j < g.body.dfg.numInsts then g.enc j else none) = g.enc := by
      funext j
      by_cases hj : j < g.body.dfg.numInsts
      · rw [if_pos hj]
      · rw [if_neg hj]
        exact (AL.2.1 j (Nat.le_of_not_lt hj)).symm
    rw [hfn]
  have hfold : ∀ l : List Ebb, (∀ e ∈ l, e ∈ po) →
      l.foldl (fun h e => ebbLoop or fuel h e none none) g = g := by
    intro l
    induction l with
    | nil => intro _; rfl
    | cons e l ih =>
      intro hsub
      have he : e ∈ po := hsub e (List.mem_cons_self e l)
      have hloop : ebbLoop or fuel g e none none = g :=
        ebbLoop_fix (fun inst hinst => instStep_fix AL he hinst) (AL.2.2.1 e he)
          (g.body.insts e) fuel none (dropThrough_none _) (hfuel e he)
      simp only [List.foldl_cons, hloop]
      exact ih (fun e2 h2 => hsub e2 (List.mem_cons_of_mem _ h2))
  simp only [legalize_function, AL.1, hresize]
  rw [hfold po.reverse (fun e he => List.mem_reverse.mp he), hresize]

/-- Claim C6: running the pass a second time on a function already
legalized for the same target produces no further changes — the whole
function, in particular the instruction sequences and the encoding table,
after the second run equals the result of the first run (relying, as the
spec states, on the ABI handlers being "unchanged"-reporting no-ops on
already-lowered boundary instructions, and on the remaining collaborators
likewise having nothing left to do on the legalized state). -/
theorem legalize_idempotent (or : Oracles) (fuel : Nat) (po : List Ebb) (f : Func)
    (AL : AlreadyLegal or po (legalize_function or fuel po f))
    (hfuel : ∀ e ∈ po, ((legalize_function or fuel po f).body.insts e).length < fuel) :
    legalize_function or fuel po (legalize_function or fuel po f) =
      legalize_function or fuel po f
    ∧ (legalize_function or fuel po (legalize_function or fuel po f)).body.insts =
        (legalize_function or fuel po f).body.insts
    ∧ (legalize_function or fuel po (legalize_function or fuel po f)).enc =
        (legalize_function or fuel po f).enc := by
  have h := legalize_fix AL hfuel
  exact ⟨h, by rw [h], by rw [h]⟩

/-- Claim C6, applied: on the concrete function and collaborators, a
second run of the pass reproduces the first run's result exactly. -/
theorem legalize_idempotent_witness :
    legalize_function orW 2 [0] (legalize_function orW 2 [0] fW) =
      legalize_function orW 2 [0] fW :=
  (legalize_idempotent orW 2 [0] fW
    (by
      refine ⟨rfl, ?_, ?_, ?_⟩
      · intro i hi
        have hn1 : (legalize_function orW 2 [0] fW).body.dfg.numInsts = 1 := rfl
        rw [hn1] at hi
        have hn : ¬ i < (legalize_function orW 2 [0] fW).body.dfg.numInsts := by
          rw [hn1]
          omega
        exact if_neg hn
      · intro e he
        have he0 : e = 0 := by simpa using he
        subst he0
        decide
      · intro e he inst hinst
        have he0 : e = 0 := by simpa using he
        subst he0
        have hmem : inst ∈ [0] := hinst
        have hi0 : inst = 0 := by simpa using hmem
        subst hi0
        refine ⟨?_, ?_, ?_, ?_, ?_⟩
        · intro h
          exact absurd h (by decide)
        · intro h
          exact absurd h (by decide)
        · intro h
          exact absurd h (by decide)
        · intro enc h
          have h7 : (Except.ok 7 : Except Legalize Nat) = .ok enc := h
          have : enc = 7 := (Except.ok.inj h7).symm
          subst this
          rfl
        · intro a h
          exact Except.noConfusion (show (Except.ok 7 : Except Legalize Nat) = .error a from h))
    (by
      intro e he
      have he0 : e = 0 := by simpa using he
      subst he0
      decide)).1

/-- Exhaustive outcome analysis of the branch-simplification-and-encode
stage of the loop body. -/
theorem branchEncodeStep_outcomes (or : Oracles) (opcode : Opcode) (f2 : Func)
    (ebb : Ebb) (inst : Inst) :
    (∃ b3 enc, BranchStage or opcode inst f2.body b3
      ∧ or.encode b3.dfg (b3.dfg.data inst) (b3.dfg.ctrlTypevar inst) = .ok enc
      ∧ branchEncodeStep or opcode f2 ebb inst = .advanced (storeEnc (f2.withBody b3) inst enc))
    ∨ (∃ b3 a r, BranchStage or opcode inst f2.body b3
      ∧ or.encode b3.dfg (b3.dfg.data inst) (b3.dfg.ctrlTypevar inst) = .error a
      ∧ legalizeDispatch or a b3 ebb inst = (r, true)
      ∧ branchEncodeStep or opcode f2 ebb inst = .rewound (f2.withBody r))
    ∨ (∃ b3 a r, BranchStage or opcode inst f2.body b3
      ∧ or.encode b3.dfg (b3.dfg.data inst) (b3.dfg.ctrlTypevar inst) = .error a
      ∧ legalizeDispatch or a b3 ebb inst = (r, false)
      ∧ branchEncodeStep or opcode f2 ebb inst = .advanced (f2.withBody r)) := by
  have main : ∀ (b3 : Body), BranchStage or opcode inst f2.body b3 →
      branchEncodeStep or opcode f2 ebb inst = encodeStep or (f2.withBody b3) ebb inst →
      (∃ b3x enc, BranchStage or opcode inst f2.body b3x
        ∧ or.encode b3x.dfg (b3x.dfg.data inst) (b3x.dfg.ctrlTypevar inst) = .ok enc
        ∧ branchEncodeStep or opcode f2 ebb inst =
            .advanced (storeEnc (f2.withBody b3x) inst enc))
      ∨ (∃ b3x a r, BranchStage or opcode inst f2.body b3x
        ∧ or.encode b3x.dfg (b3x.dfg.data inst) (b3x.dfg.ctrlTypevar inst) = .error a
        ∧ legalizeDispatch or a b3x ebb inst = (r, true)
        ∧ branchEncodeStep or opcode f2 ebb inst = .rewound (f2.withBody r))
      ∨ (∃ b3x a r, BranchStage or opcode inst f2.body b3x
        ∧ or.encode b3x.dfg (b3x.dfg.data inst) (b3x.dfg.ctrlTypevar inst) = .error a
        ∧ legalizeDispatch or a b3x ebb inst = (r, false)
        ∧ branchEncodeStep or opcode f2 ebb inst = .advanced (f2.withBody r)) := by
    intro b3 hstage hred
    cases henc : or.encode b3.dfg (b3.dfg.data inst) (b3.dfg.ctrlTypevar inst) with
    | ok enc =>
      left
      refine ⟨b3, enc, hstage, henc, ?_⟩
      rw [hred]
      simp only [encodeStep, withBody_body, Dfg.ctrlTypevar] at *
      rw [henc]
    | error a =>
      rcases hd : legalizeDispatch or a b3 ebb inst with ⟨r, ch⟩
      cases ch with
      | true =>
        right; left
        refine ⟨b3, a, r, hstage, henc, hd, ?_⟩
        rw [hred]
        simp only [encodeStep, withBody_body, Dfg.ctrlTypevar] at *
        rw [henc]
        simp [hd]
      | false =>
        right; right
        refine ⟨b3, a, r, hstage, henc, hd, ?_⟩
        rw [hred]
        simp only [encodeStep, withBody_body, Dfg.ctrlTypevar] at *
        rw [henc]
        simp [hd]
  by_cases hbr : opcode.isBranch = true
  · exact main { f2.body with dfg := or.simplifyBranchArguments f2.body.dfg inst }
      (Or.inl ⟨hbr, rfl⟩) (by simp [branchEncodeStep, hbr])
  · exact main f2.body (Or.inr ⟨by simpa using hbr, rfl⟩)
      (by simp [branchEncodeStep, hbr])

/-- Exhaustive outcome analysis of the return-ABI stage of the loop
body. -/
theorem retEncodeStep_outcomes (or : Oracles) (opcode : Opcode) (f1 : Func)
    (ebb : Ebb) (inst : Inst) :
    (∃ b2, opcode.isReturn = true
      ∧ or.handleReturnAbi f1.body f1.sig ebb inst = (b2, true)
      ∧ retEncodeStep or opcode f1 ebb inst = .rewound (f1.withBody b2))
    ∨ (∃ b2, RetStage or opcode f1.sig ebb inst f1.body b2
      ∧ retEncodeStep or opcode f1 ebb inst =
          branchEncodeStep or opcode (f1.withBody b2) ebb inst) := by
  by_cases hret : opcode.isReturn = true
  · rcases hrv : or.handleReturnAbi f1.body f1.sig ebb inst with ⟨b2, ch⟩
    cases ch with
    | true =>
      left
      exact ⟨b2, hret, rfl, by simp [retEncodeStep, hret, hrv]⟩
    | false =>
      right
      exact ⟨b2, Or.inl ⟨hret, hrv⟩, by simp [retEncodeStep, hret, hrv]⟩
  · right
    exact ⟨f1.body, Or.inr ⟨by simpa using hret, rfl⟩, by simp [retEncodeStep, hret]⟩

/-- Exhaustive outcome analysis of the call-ABI stage of the loop body. -/
theorem instStep_outcomes (or : Oracles) (f : Func) (ebb : Ebb) (inst : Inst) :
    (∃ b1, (f.body.dfg.data inst).opcode.isCall = true
      ∧ or.handleCallAbi f.body ebb inst = (b1, true)
      ∧ instStep or f ebb inst = .rewound (f.withBody b1))
    ∨ (∃ b1, CallStage or (f.body.dfg.data inst).opcode f.body ebb inst b1
      ∧ instStep or f ebb inst =
          retEncodeStep or (f.body.dfg.data inst).opcode (f.withBody b1) ebb inst) := by
  by_cases hc : (f.body.dfg.data inst).opcode.isCall = true
  · rcases hcv : or.handleCallAbi f.body ebb inst with ⟨b1, ch⟩
    cases ch with
    | true =>
      left
      exact ⟨b1, hc, rfl, by simp [instStep, hc, hcv]⟩
    | false =>
      right
      exact ⟨b1, Or.inl ⟨hc, hcv⟩, by simp [instStep, hc, hcv]⟩
  · right
    exact ⟨f.body, Or.inr ⟨by simpa using hc, rfl⟩, by simp [instStep, hc]⟩

/-- A completed run of the fuelled loop computes what the plain loop
computes. -/
theorem ebbLoopC_eq (or : Oracles) (ebb : Ebb) :
    ∀ (n : Nat) (f : Func) (pos prevPos : Option Inst) (g : Func),
      ebbLoopC or n f ebb pos prevPos = some g → ebbLoop or n f ebb pos prevPos = g := by
  intro n
  induction n with
  | zero => intro f pos prevPos g h; simp [ebbLoopC] at h
  | succ m ih =>
    intro f pos prevPos g h
    cases hn : nextInst f ebb pos with
    | none =>
      simp only [ebbLoopC, hn, Option.some.injEq] at h
      subst h
      simp only [ebbLoop, hn]
    | some inst =>
      cases hs : instStep or f ebb inst with
      | rewound f1 =>
        simp only [ebbLoopC, hn, hs] at h
        simp only [ebbLoop, hn, hs]
        exact ih f1 prevPos prevPos g h
      | advanced f1 =>
        simp only [ebbLoopC, hn, hs] at h
        simp only [ebbLoop, hn, hs]
        exact ih f1 (some inst) (some inst) g h

/-- Completion of the fuelled loop is monotone in the fuel. -/
theorem ebbLoopC_mono (or : Oracles) (ebb : Ebb) :
    ∀ (n : Nat) (f : Func) (pos prevPos : Option Inst) (g : Func),
      ebbLoopC or n f ebb pos prevPos = some g →
      ∀ m, n ≤ m → ebbLoopC or m f ebb pos prevPos = some g := by
  intro n
  induction n with
  | zero => intro f pos prevPos g h; simp [ebbLoopC] at h
  | succ k ih =>
    intro f pos prevPos g h m hm
    obtain ⟨m2, rfl⟩ : ∃ m2, m = m2 + 1 := ⟨m - 1, by omega⟩
    have hk : k ≤ m2 := by omega
    cases hn : nextInst f ebb pos with
    | none =>
      simp only [ebbLoopC, hn, Option.some.injEq] at h
      subst h
      simp only [ebbLoopC, hn]
    | some inst =>
      cases hs : instStep or f ebb inst with
      | rewound f1 =>
        simp only [ebbLoopC, hn, hs] at h
        simp only [ebbLoopC, hn, hs]
        exact ih f1 prevPos prevPos g h m2 hk
      | advanced f1 =>
        simp only [ebbLoopC, hn, hs] at h
        simp only [ebbLoopC, hn, hs]
        exact ih f1 (some inst) (some inst) g h m2 hk

/-- A completed run of the fuelled block list computes the plain fold. -/
theorem ebbsLoopC_eq (or : Oracles) (fuel : Nat) :
    ∀ (l : List Ebb) (f g : Func), ebbsLoopC or fuel l f = some g →
      l.foldl (fun h e => ebbLoop or fuel h e none none) f = g := by
  intro l
  induction l with
  | nil => intro f g h; simpa [ebbsLoopC] using h
  | cons e l ih =>
    intro f g h
    cases h1 : ebbLoopC or fuel f e none none with
    | none => simp [ebbsLoopC, h1] at h
    | some f1 =>
      simp only [ebbsLoopC, h1] at h
      simp only [List.foldl_cons, ebbLoopC_eq or e fuel f none none f1 h1]
      exact ih f1 g h

/-- A completed run of the fuelled driver computes the driver's result. -/
theorem legalizeFunctionC_eq (or : Oracles) (fuel : Nat) (po : List Ebb) (f g : Func) :
    legalizeFunctionC or fuel po f = some g → legalize_function or fuel po f = g := by
  intro h
  simp only [legalizeFunctionC] at h
  cases h3 : ebbsLoopC or fuel po.reverse
      (resizeEnc (or.legalizeSignatures f) (or.legalizeSignatures f).body.dfg.numInsts) with
  | none => rw [h3] at h; simp at h
  | some f3 =>
    rw [h3] at h
    simp only [Option.some.injEq] at h
    simp only [legalize_function]
    rw [ebbsLoopC_eq or fuel po.reverse _ f3 h3]
    exact h

/-- Under the termination hypotheses, an "unchanged" call stage left the
body exactly as it was. -/
theorem callStage_keep {or : Oracles} {μ : Body → Nat} (D : Decreasing or μ)
    {opcode : Opcode} {b0 : Body} {ebb : Ebb} {inst : Inst} {b1 : Body}
    (h : CallStage or opcode b0 ebb inst b1) : b1 = b0 := by
  rcases h with ⟨_, hcv⟩ | ⟨_, hb⟩
  · have hkeep := D.callKeep b0 ebb inst (by rw [hcv])
    rw [hcv] at hkeep
    exact hkeep
  · exact hb

/-- Under the termination hypotheses, an "unchanged" return stage left
the body exactly as it was. -/
theorem retStage_keep {or : Oracles} {μ : Body → Nat} (D : Decreasing or μ)
    {opcode : Opcode} {s : Nat} {ebb : Ebb} {inst : Inst} {b1 b2 : Body}
    (h : RetStage or opcode s ebb inst b1 b2) : b2 = b1 := by
  rcases h with ⟨_, hrv⟩ | ⟨_, hb⟩
  · have hkeep := D.retKeep b1 s ebb inst (by rw [hrv])
    rw [hrv] at hkeep
    exact hkeep
  · exact hb

/-- The branch-simplification stage affects neither the measure nor the
layout. -/
theorem branchStage_facts {or : Oracles} {μ : Body → Nat} (D : Decreasing or μ)
    {opcode : Opcode} {inst : Inst} {b2 b3 : Body}
    (h : BranchStage or opcode inst b2 b3) : μ b3 = μ b2 ∧ b3.insts = b2.insts := by
  rcases h with ⟨_, hb⟩ | ⟨_, hb⟩
  · subst hb
    exact ⟨D.simpKeep b2 inst, rfl⟩
  · subst hb
    exact ⟨rfl, rfl⟩

/-- A change-reporting rewrite dispatch strictly decreases the measure
and keeps block sequences duplicate-free. -/
theorem dispatch_dec {or : Oracles} {μ : Body → Nat} (D : Decreasing or μ)
    {a : Legalize} {b3 : Body} {ebb : Ebb} {inst : Inst} {r : Body}
    (hd : legalizeDispatch or a b3 ebb inst = (r, true)) :
    μ r < μ b3 ∧ (NodupAll b3 → NodupAll r) := by
  cases a with
  | Expand =>
    have hd2 : or.expand b3 ebb inst = (r, true) := hd
    constructor
    · have hdec := D.expandDec b3 ebb inst (by rw [hd2])
      rw [hd2] at hdec
      exact hdec
    · intro h
      have hnd := D.expandNodup b3 ebb inst h
      rw [hd2] at hnd
      exact hnd
  | Narrow =>
    have hd2 : or.narrow b3 ebb inst = (r, true) := hd
    constructor
    · have hdec := D.narrowDec b3 ebb inst (by rw [hd2])
      rw [hd2] at hdec
      exact hdec
    · intro h
      have hnd := D.narrowNodup b3 ebb inst h
      rw [hd2] at hnd
      exact hnd

/-- An "unchanged"-reporting rewrite dispatch is the identity. -/
theorem dispatch_keep {or : Oracles} {μ : Body → Nat} (D : Decreasing or μ)
    {a : Legalize} {b3 : Body} {ebb : Ebb} {inst : Inst} {r : Body}
    (hd : legalizeDispatch or a b3 ebb inst = (r, false)) : r = b3 := by
  cases a with
  | Expand =>
    have hd2 : or.expand b3 ebb inst = (r, false) := hd
    have hkeep := D.expandKeep b3 ebb inst (by rw [hd2])
    rw [hd2] at hkeep
    exact hkeep
  | Narrow =>
    have hd2 : or.narrow b3 ebb inst = (r, false) := hd
    have hkeep := D.narrowKeep b3 ebb inst (by rw [hd2])
    rw [hd2] at hkeep
    exact hkeep

/-- Under the termination hypotheses, every rewinding loop body strictly
decreases the measure, and every advancing loop body preserves the
measure and the layout. -/
theorem instStep_dec {or : Oracles} {μ : Body → Nat} (D : Decreasing or μ)
    (f : Func) (ebb : Ebb) (inst : Inst) :
    (∀ f1, instStep or f ebb inst = .rewound f1 →
      μ f1.body < μ f.body ∧ (NodupAll f.body → NodupAll f1.body))
    ∧ (∀ f1, instStep or f ebb inst = .advanced f1 →
      μ f1.body = μ f.body ∧ f1.body.insts = f.body.insts) := by
  rcases instStep_outcomes or f ebb inst with ⟨b1, _, hcv, heq⟩ | ⟨b1, hcs, heq⟩
  · constructor
    · intro f1 h
      rw [heq] at h
      injection h with h2
      rw [← h2]
      constructor
      · have hdec := D.callDec f.body ebb inst (by rw [hcv])
        rw [hcv] at hdec
        exact hdec
      · intro hnd
        have hnd2 := D.callNodup f.body ebb inst hnd
        rw [hcv] at hnd2
        exact hnd2
    · intro f1 h
      rw [heq] at h
      exact StepOut.noConfusion h
  · have hb1 : b1 = f.body := callStage_keep D hcs
    subst hb1
    rw [withBody_self] at heq
    rcases retEncodeStep_outcomes or (f.body.dfg.data inst).opcode f ebb inst with
      ⟨b2, _, hrv, heq2⟩ | ⟨b2, hrs, heq2⟩
    · constructor
      · intro f1 h
        rw [heq, heq2] at h
        injection h with h2
        rw [← h2]
        constructor
        · have hdec := D.retDec f.body f.sig ebb inst (by rw [hrv])
          rw [hrv] at hdec
          exact hdec
        · intro hnd
          have hnd2 := D.retNodup f.body f.sig ebb inst hnd
          rw [hrv] at hnd2
          exact hnd2
      · intro f1 h
        rw [heq, heq2] at h
        exact StepOut.noConfusion h
    · have hb2 : b2 = f.body := retStage_keep D hrs
      subst hb2
      rw [withBody_self] at heq2
      rcases branchEncodeStep_outcomes or (f.body.dfg.data inst).opcode f ebb inst with
        ⟨b3, enc, hbs, _, heq3⟩ | ⟨b3, a, r, hbs, _, hd, heq3⟩ | ⟨b3, a, r, hbs, _, hd, heq3⟩
      · obtain ⟨hμ3, hins3⟩ := branchStage_facts D hbs
        constructor
        · intro f1 h
          rw [heq, heq2, heq3] at h
          exact StepOut.noConfusion h
        · intro f1 h
          rw [heq, heq2, heq3] at h
          injection h with h2
          rw [← h2]
          exact ⟨hμ3, hins3⟩
      · obtain ⟨hμ3, hins3⟩ := branchStage_facts D hbs
        obtain ⟨hrlt, hrnd⟩ := dispatch_dec D hd
        constructor
        · intro f1 h
          rw [heq, heq2, heq3] at h
          injection h with h2
          rw [← h2]
          constructor
          · rw [withBody_body]
            exact lt_of_lt_of_eq hrlt hμ3
          · intro hnd
            refine hrnd ?_
            intro e
            rw [hins3]
            exact hnd e
        · intro f1 h
          rw [heq, heq2, heq3] at h
          exact StepOut.noConfusion h
      · obtain ⟨hμ3, hins3⟩ := branchStage_facts D hbs
        have hr3 : r = b3 := dispatch_keep D hd
        subst hr3
        constructor
        · intro f1 h
          rw [heq, heq2, heq3] at h
          exact StepOut.noConfusion h
        · intro f1 h
          rw [heq, heq2, heq3] at h
          injection h with h2
          rw [← h2]
          exact ⟨hμ3, hins3⟩

/-- Under the termination hypotheses every single-block traversal
terminates: some fuel completes it, preserving duplicate-freedom and not
increasing the measure. -/
theorem ebbLoopC_term {or : Oracles} {μ : Body → Nat} (D : Decreasing or μ) (ebb : Ebb) :
    ∀ (m : Nat) (f : Func) (pos : Option Inst), μ f.body = m → NodupAll f.body →
      ∃ n g, ebbLoopC or n f ebb pos pos = some g ∧ NodupAll g.body ∧ μ g.body ≤ m := by
  intro m
  induction m using Nat.strong_induction_on with
  | _ m ihm =>
    have inner : ∀ (k : Nat) (f : Func) (pos : Option Inst),
        μ f.body = m → NodupAll f.body →
        (dropThrough pos (f.body.insts ebb)).length = k →
        ∃ n g, ebbLoopC or n f ebb pos pos = some g ∧ NodupAll g.body ∧ μ g.body ≤ m := by
      intro k
      induction k using Nat.strong_induction_on with
      | _ k ihk =>
        intro f pos hμ hnd hk
        cases hdp : dropThrough pos (f.body.insts ebb) with
        | nil =>
          have hnext : nextInst f ebb pos = none := by simp [nextInst, hdp]
          exact ⟨1, f, by simp [ebbLoopC, hnext], hnd, le_of_eq hμ⟩
        | cons inst rest =>
          have hnext : nextInst f ebb pos = some inst := by simp [nextInst, hdp]
          cases hstep : instStep or f ebb inst with
          | rewound f1 =>
            obtain ⟨hlt, hnd1⟩ := (instStep_dec D f ebb inst).1 f1 hstep
            have hlt2 : μ f1.body < m := hμ ▸ hlt
            obtain ⟨n, g, hrun, hgnd, hgm⟩ := ihm (μ f1.body) hlt2 f1 pos rfl (hnd1 hnd)
            refine ⟨n + 1, g, ?_, hgnd, le_trans hgm (Nat.le_of_lt hlt2)⟩
            simp only [ebbLoopC, hnext, hstep]
            exact hrun
          | advanced f1 =>
            obtain ⟨hμe, hins⟩ := (instStep_dec D f ebb inst).2 f1 hstep
            have hnd1 : NodupAll f1.body := by
              intro e
              rw [hins]
              exact hnd e
            have hrest : dropThrough (some inst) (f1.body.insts ebb) = rest := by
              rw [hins]
              exact dropThrough_step (f.body.insts ebb) pos inst rest (hnd ebb) hdp
            have hklt : rest.length < k := by
              rw [← hk, hdp]
              simp
            obtain ⟨n, g, hrun, hgnd, hgm⟩ := ihk rest.length hklt f1 (some inst)
              (by rw [hμe]; exact hμ) hnd1 (by rw [hrest])
            refine ⟨n + 1, g, ?_, hgnd, hgm⟩
            simp only [ebbLoopC, hnext, hstep]
            exact hrun
    exact fun f pos hμ hnd =>
      inner (dropThrough pos (f.body.insts ebb)).length f pos hμ hnd rfl

/-- Under the termination hypotheses the traversal of any block list
terminates, with one fuel bound good for every block. -/
theorem ebbsLoopC_term {or : Oracles} {μ : Body → Nat} (D : Decreasing or μ) :
    ∀ (l : List Ebb) (f : Func), NodupAll f.body →
      ∃ n g, (∀ m, n ≤ m → ebbsLoopC or m l f = some g) ∧ NodupAll g.body := by
  intro l
  induction l with
  | nil => exact fun f hnd => ⟨0, f, fun m _ => rfl, hnd⟩
  | cons e l ih =>
    intro f hnd
    obtain ⟨n1, g1, hrun1, hnd1, _⟩ := ebbLoopC_term D e (μ f.body) f none rfl hnd
    obtain ⟨n2, g2, hrun2, hnd2⟩ := ih g1 hnd1
    refine ⟨max n1 n2, g2, ?_, hnd2⟩
    intro m hm
    have h1 : ebbLoopC or m f e none none = some g1 :=
      ebbLoopC_mono or e n1 f none none g1 hrun1 m (le_trans (le_max_left _ _) hm)
    simp only [ebbsLoopC, h1]
    exact hrun2 m (le_trans (le_max_right _ _) hm)

/-- Claim C3: if the collaborators satisfy the soundness hypotheses —
every invocation of `expand`, `narrow` or an ABI handler that reports a
change strictly decreases a well-founded measure of the function body (a
single measure formalizing both the rewrite soundness hypothesis and the
finiteness of ABI insertions per boundary instruction), unchanged-reports
are no-ops, and block sequences stay duplicate-free — then
`legalize_function` terminates on every input function: some fuel
completes every block's traversal, and the fuelled driver then computes
that completed result. -/
theorem legalize_terminates (or : Oracles) (μ : Body → Nat) (po : List Ebb) (f : Func)
    (D : Decreasing or μ)
    (h0 : NodupAll (or.legalizeSignatures f).body) :
    ∃ fuel g, legalizeFunctionC or fuel po f = some g
      ∧ legalize_function or fuel po f = g := by
  have hstart : NodupAll (resizeEnc (or.legalizeSignatures f)
      (or.legalizeSignatures f).body.dfg.numInsts).body := h0
  obtain ⟨n, f3, hrun, _⟩ := ebbsLoopC_term D po.reverse _ hstart
  have hC : legalizeFunctionC or n po f = some (resizeEnc f3 f3.body.dfg.numInsts) := by
    simp only [legalizeFunctionC]
    rw [hrun n le_rfl]
  exact ⟨n, resizeEnc f3 f3.body.dfg.numInsts, hC, legalizeFunctionC_eq or n po f _ hC⟩

/-- Claim C3, applied: with the concrete collaborators (which never report
a change) and the constant measure, the pass terminates on the concrete
function. -/
theorem legalize_terminates_witness :
    ∃ fuel g, legalizeFunctionC orW fuel [0] fW = some g
      ∧ legalize_function orW fuel [0] fW = g :=
  legalize_terminates orW (fun _ => 0) [0] fW
    { callDec := fun _ _ _ h => Bool.noConfusion h
      callKeep := fun _ _ _ _ => rfl
      retDec := fun _ _ _ _ h => Bool.noConfusion h
      retKeep := fun _ _ _ _ _ => rfl
      expandDec := fun _ _ _ h => Bool.noConfusion h
      expandKeep := fun _ _ _ _ => rfl
      narrowDec := fun _ _ _ h => Bool.noConfusion h
      narrowKeep := fun _ _ _ _ => rfl
      simpKeep := fun _ _ => rfl
      callNodup := fun _ _ _ h => h
      retNodup := fun _ _ _ _ h => h
      expandNodup := fun _ _ _ h => h
      narrowNodup := fun _ _ _ h => h }
    (fun e => by by_cases he : e = 0 <;> simp [orW, fW, he])

/-- Doing nothing is a local step. -/
theorem localStepOK_refl (ebb : Ebb) (inst : Inst) (b : Body) : LocalStepOK ebb inst b b :=
  ⟨fun _ post h => ⟨inst :: post, h⟩, fun _ _ h => h, fun _ _ => rfl, fun _ h => h,
   fun h => h, fun _ h => h⟩

/-- A body change that keeps the layout and the block list, and does not
shrink the handle range, is a local step. -/
theorem localStepOK_of_insts_eq {ebb : Ebb} {inst : Inst} {b1 b2 : Body}
    (hins : b2.insts = b1.insts) (hnum : b1.dfg.numInsts ≤ b2.dfg.numInsts)
    (hebbs : b2.ebbs = b1.ebbs) : LocalStepOK ebb inst b1 b2 := by
  refine ⟨?_, ?_, ?_, ?_, ?_, ?_⟩
  · intro pre post h
    exact ⟨inst :: post, by rw [hins]; exact h⟩
  · intro e j hj
    rw [hins]
    exact hj
  · intro e _
    rw [hins]
  · intro e h
    rw [hins]
    exact h
  · intro hv e j hj
    rw [hins] at hj
    exact lt_of_lt_of_le (hv e j hj) hnum
  · intro e he
    rw [hebbs]
    exact he

/-- Local steps compose when the first one left the layout unchanged. -/
theorem localStepOK_trans_insts {ebb : Ebb} {inst : Inst} {b b1 b2 : Body}
    (h1 : LocalStepOK ebb inst b b1) (he : b1.insts = b.insts)
    (h2 : LocalStepOK ebb inst b1 b2) : LocalStepOK ebb inst b b2 := by
  obtain ⟨p1, m1, o1, n1, v1, e1⟩ := h1
  obtain ⟨p2, m2, o2, n2, v2, e2⟩ := h2
  refine ⟨?_, ?_, ?_, ?_, ?_, ?_⟩
  · intro pre post h
    exact p2 pre post (by rw [he]; exact h)
  · intro e j hj
    exact m2 e j (by rw [he]; exact hj)
  · intro e hne
    rw [o2 e hne, he]
  · intro e h
    exact n2 e (by rw [he]; exact h)
  · intro hv
    exact v2 (v1 hv)
  · intro e hme
    exact e2 e (e1 e hme)

/-- Under the sanity conditions, a call stage is a layout-preserving
local step. -/
theorem callStage_sane {or : Oracles} (S : Sane or) {opcode : Opcode} {b0 : Body}
    {ebb : Ebb} {inst : Inst} {b1 : Body}
    (h : CallStage or opcode b0 ebb inst b1) :
    LocalStepOK ebb inst b0 b1 ∧ b1.insts = b0.insts := by
  rcases h with ⟨_, hcv⟩ | ⟨_, hb⟩
  · constructor
    · have hrw := S.callRw b0 ebb inst
      rw [hcv] at hrw
      exact hrw
    · have hkeep := S.callFalseKeep b0 ebb inst (by rw [hcv])
      rw [hcv] at hkeep
      exact hkeep
  · subst hb
    exact ⟨localStepOK_refl ebb inst _, rfl⟩

/-- Under the sanity conditions, a return stage is a layout-preserving
local step. -/
theorem retStage_sane {or : Oracles} (S : Sane or) {opcode : Opcode} {s : Nat}
    {ebb : Ebb} {inst : Inst} {b1 b2 : Body}
    (h : RetStage or opcode s ebb inst b1 b2) :
    LocalStepOK ebb inst b1 b2 ∧ b2.insts = b1.insts := by
  rcases h with ⟨_, hrv⟩ | ⟨_, hb⟩
  · constructor
    · have hrw := S.retRw s b1 ebb inst
      simp only at hrw
      rw [hrv] at hrw
      exact hrw
    · have hkeep := S.retFalseKeep b1 s ebb inst (by rw [hrv])
      rw [hrv] at hkeep
      exact hkeep
  · subst hb
    exact ⟨localStepOK_refl ebb inst _, rfl⟩

/-- Under the sanity conditions, the branch stage is a layout-preserving
local step. -/
theorem branchStage_sane {or : Oracles} (S : Sane or) {opcode : Opcode}
    {ebb : Ebb} {inst : Inst} {b2 b3 : Body}
    (h : BranchStage or opcode inst b2 b3) :
    LocalStepOK ebb inst b2 b3 ∧ b3.insts = b2.insts := by
  rcases h with ⟨_, hb⟩ | ⟨_, hb⟩
  · subst hb
    exact ⟨localStepOK_of_insts_eq rfl (S.simpNum b2.dfg inst) rfl, rfl⟩
  · subst hb
    exact ⟨localStepOK_refl ebb inst _, rfl⟩

/-- Under the sanity conditions, a rewrite dispatch is a local step. -/
theorem dispatch_sane {or : Oracles} (S : Sane or) {a : Legalize} {b3 : Body}
    {ebb : Ebb} {inst : Inst} {r : Body} {ch : Bool}
    (hd : legalizeDispatch or a b3 ebb inst = (r, ch)) : LocalStepOK ebb inst b3 r := by
  cases a with
  | Expand =>
    have hd2 : or.expand b3 ebb inst = (r, ch) := hd
    have hrw := S.expandRw b3 ebb inst
    rw [hd2] at hrw
    exact hrw
  | Narrow =>
    have hd2 : or.narrow b3 ebb inst = (r, ch) := hd
    have hrw := S.narrowRw b3 ebb inst
    rw [hd2] at hrw
    exact hrw

/-- Under the sanity and no-dead-end conditions, every rewinding loop
body is a local step that keeps the encoding table, and every advancing
loop body stores an encoding for the current instruction on a body with
an unchanged layout. -/
theorem instStep_sane {or : Oracles} (S : Sane or) (ND : NoDeadEnd or)
    (f : Func) (ebb : Ebb) (inst : Inst) :
    (∀ f1, instStep or f ebb inst = .rewound f1 →
      f1.enc = f.enc ∧ LocalStepOK ebb inst f.body f1.body)
    ∧ (∀ f1, instStep or f ebb inst = .advanced f1 →
      ∃ b3 enc, f1 = storeEnc (f.withBody b3) inst enc
        ∧ b3.insts = f.body.insts ∧ LocalStepOK ebb inst f.body b3) := by
  rcases instStep_outcomes or f ebb inst with ⟨b1, _, hcv, heq⟩ | ⟨b1, hcs, heq⟩
  · constructor
    · intro f1 h
      rw [heq] at h
      injection h with h2
      rw [← h2]
      refine ⟨rfl, ?_⟩
      have hrw := S.callRw f.body ebb inst
      rw [hcv] at hrw
      exact hrw
    · intro f1 h
      rw [heq] at h
      exact StepOut.noConfusion h
  · obtain ⟨hOK1, hins1⟩ := callStage_sane S hcs
    rcases retEncodeStep_outcomes or (f.body.dfg.data inst).opcode (f.withBody b1) ebb inst
      with ⟨b2, _, hrv, heq2⟩ | ⟨b2, hrs, heq2⟩
    · simp only [withBody_body, withBody_sig] at hrv
      constructor
      · intro f1 h
        rw [heq, heq2] at h
        injection h with h2
        rw [← h2]
        refine ⟨rfl, ?_⟩
        have hrw := S.retRw f.sig b1 ebb inst
        simp only at hrw
        rw [hrv] at hrw
        exact localStepOK_trans_insts hOK1 hins1 hrw
      · intro f1 h
        rw [heq, heq2] at h
        exact StepOut.noConfusion h
    · simp only [withBody_body, withBody_sig] at hrs
      obtain ⟨hOK2, hins2⟩ := retStage_sane S hrs
      have hins21 : b2.insts = f.body.insts := hins2.trans hins1
      have hOK12 : LocalStepOK ebb inst f.body b2 :=
        localStepOK_trans_insts hOK1 hins1 hOK2
      rcases branchEncodeStep_outcomes or (f.body.dfg.data inst).opcode
          ((f.withBody b1).withBody b2) ebb inst
        with ⟨b3, enc, hbs, _, heq3⟩ | ⟨b3, a, r, hbs, henc, hd, heq3⟩
          | ⟨b3, a, r, hbs, henc, hd, heq3⟩
      · simp only [withBody_body] at hbs
        obtain ⟨hOK3, hins3⟩ := branchStage_sane S hbs
        constructor
        · intro f1 h
          rw [heq, heq2, heq3] at h
          exact StepOut.noConfusion h
        · intro f1 h
          rw [heq, heq2, heq3] at h
          injection h with h2
          refine ⟨b3, enc, h2.symm, hins3.trans hins21, ?_⟩
          exact localStepOK_trans_insts hOK12 hins21 hOK3
      · simp only [withBody_body] at hbs
        obtain ⟨hOK3, hins3⟩ := branchStage_sane S hbs
        have hins31 : b3.insts = f.body.insts := hins3.trans hins21
        have hOK13 : LocalStepOK ebb inst f.body b3 :=
          localStepOK_trans_insts hOK12 hins21 hOK3
        constructor
        · intro f1 h
          rw [heq, heq2, heq3] at h
          injection h with h2
          rw [← h2]
          refine ⟨rfl, ?_⟩
          exact localStepOK_trans_insts hOK13 hins31 (dispatch_sane S hd)
        · intro f1 h
          rw [heq, heq2, heq3] at h
          exact StepOut.noConfusion h
      · exfalso
        have hch := ND a b3 ebb inst henc
        rw [hd] at hch
        exact Bool.noConfusion hch

/-- A cursor standing at the end of the processed prefix sees exactly the
unprocessed suffix. -/
theorem dropThrough_posEnd {pos : Option Inst} {T R : List Inst}
    (hPos : PosEnd pos T) (hnd : (T ++ R).Nodup) : dropThrough pos (T ++ R) = R := by
  rcases hPos with ⟨hp, hT⟩ | ⟨p, T2, hp, hT⟩
  · subst hp hT
    exact dropThrough_none R
  · subst hp hT
    exact dropThrough_append T2 p R hnd

/-- The completeness invariant of a single block traversal: if the
traversal completes and every instruction of the already-processed prefix
has an encoding, then on exit every instruction of the block has an
encoding; encodings are never dropped, other blocks' layouts are
untouched, blocks are never removed, and well-formedness is preserved. -/
theorem ebbLoopC_complete {or : Oracles} (S : Sane or) (ND : NoDeadEnd or) (ebb : Ebb) :
    ∀ (n : Nat) (f g : Func) (T R : List Inst) (pos : Option Inst),
      ebbLoopC or n f ebb pos pos = some g →
      f.body.insts ebb = T ++ R →
      PosEnd pos T →
      Good f → ebb ∈ f.body.ebbs →
      (∀ i ∈ T, f.enc i ≠ none) →
      Good g ∧ (∀ i ∈ g.body.insts ebb, g.enc i ≠ none)
      ∧ (∀ i, f.enc i ≠ none → g.enc i ≠ none)
      ∧ (∀ e, e ≠ ebb → g.body.insts e = f.body.insts e)
      ∧ (∀ e, e ∈ f.body.ebbs → e ∈ g.body.ebbs) := by
  intro n
  induction n with
  | zero =>
    intro f g T R pos hrun
    simp [ebbLoopC] at hrun
  | succ m ih =>
    intro f g T R pos hrun hT hPos hGood hEbb hTenc
    have hndl : (T ++ R).Nodup := by
      rw [← hT]
      exact hGood.1 ebb
    have hdp : dropThrough pos (f.body.insts ebb) = R := by
      rw [hT]
      exact dropThrough_posEnd hPos hndl
    cases R with
    | nil =>
      have hnext : nextInst f ebb pos = none := by simp [nextInst, hdp]
      simp only [ebbLoopC, hnext, Option.some.injEq] at hrun
      subst hrun
      refine ⟨hGood, ?_, fun _ h => h, fun _ _ => rfl, fun _ h => h⟩
      intro i hi
      apply hTenc
      rw [hT] at hi
      simpa using hi
    | cons inst R2 =>
      have hnext : nextInst f ebb pos = some inst := by simp [nextInst, hdp]
      cases hstep : instStep or f ebb inst with
      | rewound f1 =>
        simp only [ebbLoopC, hnext, hstep] at hrun
        obtain ⟨henc1, hOK⟩ := (instStep_sane S ND f ebb inst).1 f1 hstep
        obtain ⟨p1, m1, o1, n1, v1, e1⟩ := hOK
        obtain ⟨mid, hT1⟩ := p1 T R2 hT
        have hGood1 : Good f1 := by
          refine ⟨fun e => n1 e (hGood.1 e), v1 hGood.2.1, ?_⟩
          intro i hi
          rw [henc1] at hi
          obtain ⟨e, he, hie⟩ := hGood.2.2 i hi
          exact ⟨e, e1 e he, m1 e i hie⟩
        have hres := ih f1 g T mid pos hrun hT1 hPos hGood1 (e1 ebb hEbb)
          (fun i hi => by rw [henc1]; exact hTenc i hi)
        refine ⟨hres.1, hres.2.1, ?_, ?_, ?_⟩
        · intro i hi
          apply hres.2.2.1
          rw [henc1]
          exact hi
        · intro e hne
          rw [hres.2.2.2.1 e hne, o1 e hne]
        · intro e he
          exact hres.2.2.2.2 e (e1 e he)
      | advanced f1 =>
        simp only [ebbLoopC, hnext, hstep] at hrun
        obtain ⟨b3, enc, hf1, hins3, hOK⟩ := (instStep_sane S ND f ebb inst).2 f1 hstep
        subst hf1
        obtain ⟨p1, m1, o1, n1, v1, e1⟩ := hOK
        have hencf1 : ∀ i, (storeEnc (f.withBody b3) inst enc).enc i =
            if i = inst then some enc else f.enc i := fun i => rfl
        have hT1 : (storeEnc (f.withBody b3) inst enc).body.insts ebb =
            (T ++ [inst]) ++ R2 := by
          show b3.insts ebb = (T ++ [inst]) ++ R2
          rw [hins3, hT, List.append_assoc]
          rfl
        have hGood1 : Good (storeEnc (f.withBody b3) inst enc) := by
          refine ⟨?_, ?_, ?_⟩
          · intro e
            show (b3.insts e).Nodup
            rw [hins3]
            exact hGood.1 e
          · intro e j hj
            exact v1 hGood.2.1 e j hj
          · intro i hi
            rw [hencf1 i] at hi
            by_cases hii : i = inst
            · subst hii
              refine ⟨ebb, e1 ebb hEbb, ?_⟩
              show i ∈ b3.insts ebb
              rw [hins3, hT]
              simp
            · rw [if_neg hii] at hi
              obtain ⟨e, he, hie⟩ := hGood.2.2 i hi
              exact ⟨e, e1 e he, m1 e i hie⟩
        have hTenc1 : ∀ i ∈ T ++ [inst], (storeEnc (f.withBody b3) inst enc).enc i ≠ none := by
          intro i hi
          rw [hencf1 i]
          by_cases hii : i = inst
          · rw [if_pos hii]
            simp
          · rw [if_neg hii]
            apply hTenc
            rcases List.mem_append.mp hi with h | h
            · exact h
            · simp at h
              exact absurd h hii
        have hres := ih (storeEnc (f.withBody b3) inst enc) g (T ++ [inst]) R2 (some inst)
          hrun hT1 (Or.inr ⟨inst, T, rfl, rfl⟩) hGood1 (e1 ebb hEbb) hTenc1
        refine ⟨hres.1, hres.2.1, ?_, ?_, ?_⟩
        · intro i hi
          apply hres.2.2.1
          rw [hencf1 i]
          by_cases hii : i = inst
          · rw [if_pos hii]
            simp
          · rw [if_neg hii]
            exact hi
        · intro e hne
          rw [hres.2.2.2.1 e hne]
          show b3.insts e = f.body.insts e
          rw [hins3]
        · intro e he
          exact hres.2.2.2.2 e (e1 e he)

/-- The completeness invariant over a whole block list. -/
theorem ebbsLoopC_complete {or : Oracles} (S : Sane or) (ND : NoDeadEnd or) (fuel : Nat) :
    ∀ (l : List Ebb) (f g : Func),
      ebbsLoopC or fuel l f = some g →
      Good f → (∀ e ∈ l, e ∈ f.body.ebbs) →
      Good g ∧ (∀ e ∈ l, ∀ i ∈ g.body.insts e, g.enc i ≠ none)
      ∧ (∀ i, f.enc i ≠ none → g.enc i ≠ none)
      ∧ (∀ e, e ∈ f.body.ebbs → e ∈ g.body.ebbs)
      ∧ (∀ e, e ∉ l → g.body.insts e = f.body.insts e) := by
  intro l
  induction l with
  | nil =>
    intro f g hrun hGood _
    simp only [ebbsLoopC, Option.some.injEq] at hrun
    subst hrun
    exact ⟨hGood, by simp, fun _ h => h, fun _ h => h, fun _ _ => rfl⟩
  | cons e l ih =>
    intro f g hrun hGood hsub
    cases h1 : ebbLoopC or fuel f e none none with
    | none => simp [ebbsLoopC, h1] at hrun
    | some f1 =>
      simp only [ebbsLoopC, h1] at hrun
      have hres1 := ebbLoopC_complete S ND e fuel f f1 [] (f.body.insts e) none h1
        (by simp) (Or.inl ⟨rfl, rfl⟩) hGood (hsub e (List.mem_cons_self e l))
        (by simp)
      obtain ⟨hGood1, hEnc1, hMono1, hOther1, hEbbs1⟩ := hres1
      have hres2 := ih f1 g hrun hGood1
        (fun e2 he2 => hEbbs1 e2 (hsub e2 (List.mem_cons_of_mem _ he2)))
      obtain ⟨hGoodg, hEncl, hMono2, hEbbs2, hUnv2⟩ := hres2
      refine ⟨hGoodg, ?_, ?_, ?_, ?_⟩
      · intro e2 he2 i hi
        rcases List.mem_cons.mp he2 with he2 | he2
        · subst he2
          by_cases hel : e2 ∈ l
          · exact hEncl e2 hel i hi
          · rw [hUnv2 e2 hel] at hi
            exact hMono2 i (hEnc1 i hi)
        · exact hEncl e2 he2 i hi
      · intro i hi
        exact hMono2 i (hMono1 i hi)
      · intro e2 he2
        exact hEbbs2 e2 (hEbbs1 e2 he2)
      · intro e2 he2
        have hne : e2 ≠ e := fun hcontra => he2 (hcontra ▸ List.mem_cons_self e l)
        have hnl : e2 ∉ l := fun hcontra => he2 (List.mem_cons_of_mem _ hcontra)
        rw [hUnv2 e2 hnl, hOther1 e2 hne]

/-- Resizing the encoding table preserves well-formedness. -/
theorem good_resize {f : Func} (h : Good f) (n : Nat) : Good (resizeEnc f n) := by
  refine ⟨h.1, h.2.1, ?_⟩
  intro i hi
  have hi2 : f.enc i ≠ none := by
    intro hcontra
    apply hi
    show (if i < n then f.enc i else none) = none
    rw [hcontra]
    simp
  exact h.2.2 i hi2

/-- Claim C1: under the sanity conditions on the spec-modelled
collaborators (local, insertion-only rewrites; no dead-end dispatches),
whenever a run of `legalize_function` completes within its fuel, every
instruction of every block of the dominator-tree postorder (the blocks
reachable from the entry block) has a non-empty entry in the encoding
table, and every non-empty encoding-table entry refers to an instruction
that is live in the final layout — no entry points to a removed
handle. -/
theorem legalize_completeness (or : Oracles) (fuel : Nat) (po : List Ebb) (f g : Func)
    (S : Sane or) (ND : NoDeadEnd or)
    (hrun : legalizeFunctionC or fuel po f = some g)
    (hgood : Good (or.legalizeSignatures f))
    (hpo : ∀ e ∈ po, e ∈ (or.legalizeSignatures f).body.ebbs) :
    legalize_function or fuel po f = g
    ∧ (∀ e ∈ po, ∀ i ∈ g.body.insts e, g.enc i ≠ none)
    ∧ (∀ i, g.enc i ≠ none → ∃ e, e ∈ g.body.ebbs ∧ i ∈ g.body.insts e) := by
  refine ⟨legalizeFunctionC_eq or fuel po f g hrun, ?_⟩
  simp only [legalizeFunctionC] at hrun
  cases h3 : ebbsLoopC or fuel po.reverse
      (resizeEnc (or.legalizeSignatures f) (or.legalizeSignatures f).body.dfg.numInsts) with
  | none => rw [h3] at hrun; simp at hrun
  | some f3 =>
    rw [h3] at hrun
    simp only [Option.some.injEq] at hrun
    have hres := ebbsLoopC_complete S ND fuel po.reverse
      (resizeEnc (or.legalizeSignatures f) (or.legalizeSignatures f).body.dfg.numInsts) f3 h3
      (good_resize hgood _) (fun e he => hpo e (List.mem_reverse.mp he))
    obtain ⟨hGood3, hEncl, _, _, _⟩ := hres
    subst hrun
    constructor
    · intro e he i hi
      have hi3 : i ∈ f3.body.insts e := hi
      have henc3 : f3.enc i ≠ none := hEncl e (List.mem_reverse.mpr he) i hi3
      have hlt : i < f3.body.dfg.numInsts := hGood3.2.1 e i hi3
      show (if i < f3.body.dfg.numInsts then f3.enc i else none) ≠ none
      rw [if_pos hlt]
      exact henc3
    · intro i hi
      have hi3 : f3.enc i ≠ none := by
        intro hcontra
        apply hi
        show (if i < f3.body.dfg.numInsts then f3.enc i else none) = none
        rw [hcontra]
        simp
      exact hGood3.2.2 i hi3

/-- Claim C1, applied: on the concrete function and collaborators the run
completes, and the completed result has an encoding for every laid-out
instruction, each entry referring to a live instruction. -/
theorem legalize_completeness_witness :
    ∃ g, legalizeFunctionC orW 2 [0] fW = some g
      ∧ (∀ e ∈ [0], ∀ i ∈ g.body.insts e, g.enc i ≠ none)
      ∧ (∀ i, g.enc i ≠ none → ∃ e, e ∈ g.body.ebbs ∧ i ∈ g.body.insts e) := by
  obtain ⟨g, hg⟩ : ∃ g, legalizeFunctionC orW 2 [0] fW = some g := ⟨_, rfl⟩
  have hS : Sane orW :=
    { callRw := fun b e i => localStepOK_refl e i b
      retRw := fun _ b e i => localStepOK_refl e i b
      expandRw := fun b e i => localStepOK_refl e i b
      narrowRw := fun b e i => localStepOK_refl e i b
      callFalseKeep := fun _ _ _ _ => rfl
      retFalseKeep := fun _ _ _ _ _ => rfl
      simpNum := fun _ _ => le_refl _ }
  have hND : NoDeadEnd orW := fun _ _ _ _ h => Except.noConfusion h
  have hGoodW : Good (orW.legalizeSignatures fW) := by
    refine ⟨?_, ?_, ?_⟩
    · intro e
      by_cases he : e = 0 <;> simp [orW, fW, he]
    · intro e j hj
      by_cases he : e = 0
      · simp [orW, fW, he] at hj
        simp [orW, fW, hj]
      · simp [orW, fW, he] at hj
    · intro i hi
      exact absurd rfl hi
  have hpoW : ∀ e ∈ [0], e ∈ (orW.legalizeSignatures fW).body.ebbs := by
    intro e he
    have he0 : e = 0 := by simpa using he
    subst he0
    simp [orW, fW]
  have h := legalize_completeness orW 2 [0] fW g hS hND hg hGoodW hpoW
  exact ⟨g, hg, h.2.1, h.2.2⟩

end Legalizer
